import Mathlib

/-!
# Verification of the Git-Sonar repository decoder and graph builder

Shallow embedding of the core of the Git-Sonar repository:
the graph construction algorithms (`src/lib/git/graph.ts`: `buildTopoOrder`,
`assignLanes`, `computeMetrics`, `generateEdges`, `buildRepoGraph`) and the
git object decoder (`src/lib/git/import-local/import-git` file:
`parsePackIndex`, `readPackObject`, `applyDelta`, `parseCommitObject`,
and the commit walk of `parseFromFS`).

JavaScript `Map<string, V>` values are modelled as association lists
(`List (String × V)`) whose iteration order is insertion order, exactly as in
the ECMAScript semantics; `Map.set` on an existing key updates the value in
place, otherwise it appends.  JavaScript exceptions are modelled with
`Option`/`Except`, `Uint8Array` values as `List Nat` of byte values, and the
external `fflate` decompressors as function parameters.
-/

set_option maxRecDepth 2000

namespace GitSonar

/-- JS `Map.get`: value of the first (and, for real maps, only) entry with the
given key, or `none` (`undefined`). -/
def jget {α : Type} (m : List (String × α)) (k : String) : Option α :=
  (m.find? (fun e => e.1 == k)).map (·.2)

/-- JS `Map.has`. -/
def jhas {α : Type} (m : List (String × α)) (k : String) : Bool :=
  (m.find? (fun e => e.1 == k)).isSome

/-- JS `Map.set`: update in place when the key is present (keeping its
position in iteration order), otherwise append a new entry. -/
def jset {α : Type} (m : List (String × α)) (k : String) (v : α) :
    List (String × α) :=
  if jhas m k then m.map (fun e => if e.1 == k then (k, v) else e)
  else m ++ [(k, v)]

/-- Keys of a JS map, in iteration order. -/
def jkeys {α : Type} (m : List (String × α)) : List String := m.map (·.1)

/-- JS `Map.get` with natural-number keys (used for `laneInUse`). -/
def jgetN {α : Type} (m : List (Nat × α)) (k : Nat) : Option α :=
  (m.find? (fun e => e.1 == k)).map (·.2)

/-- JS `Map.has` with natural-number keys. -/
def jhasN {α : Type} (m : List (Nat × α)) (k : Nat) : Bool :=
  (m.find? (fun e => e.1 == k)).isSome

/-- JS `Map.set` with natural-number keys. -/
def jsetN {α : Type} (m : List (Nat × α)) (k : Nat) (v : α) :
    List (Nat × α) :=
  if jhasN m k then m.map (fun e => if e.1 == k then (k, v) else e)
  else m ++ [(k, v)]

/-! ### Character-level string primitives

The JS string operations used by the source (`split`, `join`,
`startsWith`, `slice`, `toLowerCase`) are modelled directly over the
character list of a `String`, which keeps them fully computable in the
kernel. -/

def splitLinesAux : List Char → List Char → List String
  | [], acc => [String.mk acc.reverse]
  | c :: cs, acc =>
    if c = '\n' then String.mk acc.reverse :: splitLinesAux cs []
    else splitLinesAux cs (c :: acc)

/-- JS `s.split('\n')` (keeps empty segments; `''.split('\n') = ['']`). -/
def splitLines (s : String) : List String :=
  splitLinesAux s.data []

def joinLinesAux : List String → List Char
  | [] => []
  | [l] => l.data
  | l :: ls => l.data ++ '\n' :: joinLinesAux ls

/-- JS `lines.join('\n')`. -/
def joinLines (ls : List String) : String :=
  String.mk (joinLinesAux ls)

/-- JS `s.startsWith(p)`. -/
def strStartsWith (s p : String) : Bool :=
  p.data.isPrefixOf s.data

/-- JS `s.slice(n)` for a non-negative character index. -/
def strDrop (s : String) (n : Nat) : String :=
  String.mk (s.data.drop n)

/-- JS `s.toLowerCase()` (ASCII, which is all the comparisons need). -/
def strToLower (s : String) : String :=
  String.mk (s.data.map Char.toLower)

/-- Per-commit diff statistics (`CommitNode.stats`); both fields are optional
in the TypeScript interface. -/
structure CommitStats where
  additions : Option Int
  deletions : Option Int
  deriving Repr, DecidableEq

/-- `CommitNode` from `src/lib/git/types.ts`: one decoded commit. -/
structure CommitNode where
  id : String
  parents : List String
  authorName : String
  authoredAt : Int
  messageSubject : String
  branchHints : Option (List String) := none
  stats : Option CommitStats := none
  deriving Repr, DecidableEq

/-- The decoded commit map: a JS `Map<string, CommitNode>`. -/
abbrev CommitMap := List (String × CommitNode)

/-- `RepoMetrics` as produced by `computeMetrics`. -/
structure RepoMetrics where
  commitCount : Nat
  mergeCount : Nat
  authorCount : Nat
  authorCommits : List (String × Nat)
  totalAdditions : Int
  totalDeletions : Int
  timeSpan : Int
  deriving Repr, DecidableEq

/-- `CommitEdge` from `src/lib/git/types.ts` (fields `from`, `to`,
`isMerge`; `from`/`to` renamed to avoid the Lean keyword). -/
structure CommitEdge where
  fromId : String
  toId : String
  isMerge : Bool
  deriving Repr, DecidableEq

/-- `RepoGraph` from `src/lib/git/types.ts`. -/
structure RepoGraph where
  commits : CommitMap
  heads : List (String × String)
  defaultHead : String
  topoOrder : List String
  lanes : List (String × Nat)
  metrics : RepoMetrics
  deriving Repr, DecidableEq

/-! ## `buildTopoOrder` (graph.ts)

Kahn's algorithm.  The in-degree counters are JS numbers that are only ever
incremented/decremented by 1, modelled as `Int`.  The `queue.sort` calls use
`List.mergeSort` with the timestamp comparator; the proofs below rely only on
the result being a permutation of the input, which is true of any comparison
sort. -/

/-- The timestamp key used by the queue comparator
`(commits.get(a)?.authoredAt ?? 0) - (commits.get(b)?.authoredAt ?? 0)`. -/
def tsOf (commits : CommitMap) (a : String) : Int :=
  ((jget commits a).map (·.authoredAt)).getD 0

/-- Stable insertion of one element into a timestamp-sorted queue: an
element goes before the first strictly-later element, after equal ones
already present. -/
def insertByTs (commits : CommitMap) (x : String) : List String → List String
  | [] => [x]
  | y :: ys =>
    if tsOf commits x < tsOf commits y then x :: y :: ys
    else y :: insertByTs commits x ys

/-- `queue.sort((a, b) => tsOf a - tsOf b)`: JS `Array.prototype.sort` is
stable, and any stable sort by the same key yields the same list, so a
stable insertion sort models it exactly. -/
def sortQueue (commits : CommitMap) (q : List String) : List String :=
  q.foldr (insertByTs commits) []

theorem insertByTs_perm (commits : CommitMap) (x : String) (l : List String) :
    List.Perm (insertByTs commits x l) (x :: l) := by
  induction l with
  | nil => exact List.Perm.refl _
  | cons y ys ih =>
    rw [insertByTs]
    by_cases hc : tsOf commits x < tsOf commits y
    · simp only [hc, if_true]
      exact List.Perm.refl _
    · simp only [hc, if_false]
      exact (ih.cons y).trans (List.Perm.swap x y ys)

theorem sortQueue_perm (commits : CommitMap) (q : List String) :
    List.Perm (sortQueue commits q) q := by
  induction q with
  | nil => exact List.Perm.refl _
  | cons x xs ih =>
    exact (insertByTs_perm commits x _).trans (ih.cons x)

/-- First phase of `buildTopoOrder`: the two `for` loops that build the
in-degree and child maps, processing one commit entry.  The inner loop over
`commit.parents` appends `id` to each present parent's child list and bumps
`id`'s own in-degree. -/
def topoDegreeStep (commits : CommitMap)
    (st : List (String × Int) × List (String × List String))
    (e : String × CommitNode) :
    List (String × Int) × List (String × List String) :=
  let id := e.1
  let inDegree := if jhas st.1 id then st.1 else jset st.1 id 0
  let children := if jhas st.2 id then st.2 else jset st.2 id []
  e.2.parents.foldl
    (fun st p =>
      if jhas commits p then
        (jset st.1 id (((jget st.1 id).getD 0) + 1),
         jset st.2 p (((jget st.2 p).getD []) ++ [id]))
      else st)
    (inDegree, children)

/-- Both phase-one maps of `buildTopoOrder`. -/
def topoDegrees (commits : CommitMap) :
    List (String × Int) × List (String × List String) :=
  commits.foldl (topoDegreeStep commits) ([], [])

/-- One iteration of the `while (queue.length > 0)` loop of `buildTopoOrder`,
processing the children of the dequeued commit: decrement each child's
in-degree and enqueue (re-sorting) children that reach zero. -/
def topoChildStep (commits : CommitMap)
    (st : List (String × Int) × List String) (childId : String) :
    List (String × Int) × List String :=
  let newDegree := ((jget st.1 childId).getD 1) - 1
  let inDegree := jset st.1 childId newDegree
  if newDegree == 0 then (inDegree, sortQueue commits (st.2 ++ [childId]))
  else (inDegree, st.2)

/-- The `while` loop of `buildTopoOrder`.  JS has no fuel, but each loop
iteration dequeues one element and every commit is enqueued at most once, so
`commits.length + 1` units of fuel are provably enough (`fuel = 0` is
unreachable from the initial state). -/
def topoLoop (commits : CommitMap)
    (children : List (String × List String)) :
    Nat → List (String × Int) → List String → List String → List String
  | 0, _, _, result => result
  | fuel + 1, inDegree, queue, result =>
    match queue with
    | [] => result
    | id :: rest =>
      let commitChildren := (jget children id).getD []
      let st := commitChildren.foldl (topoChildStep commits) (inDegree, rest)
      topoLoop commits children fuel st.1 st.2 (result ++ [id])

/-- `buildTopoOrder` from graph.ts. -/
def buildTopoOrder (commits : CommitMap) : List String :=
  let dc := topoDegrees commits
  let queue0 := ((dc.1.filter (fun e => e.2 == 0)).map (·.1))
  let queue := sortQueue commits queue0
  topoLoop commits dc.2 (commits.length + 1) dc.1 queue []

/-! ## `assignLanes` (graph.ts) -/

/-- The parent→children map built at the top of `assignLanes` (no dedup /
initialisation, unlike the one in `buildTopoOrder`). -/
def childrenOfMap (commits : CommitMap) : List (String × List String) :=
  commits.foldl
    (fun m e =>
      e.2.parents.foldl
        (fun m p =>
          if jhas commits p then jset m p (((jget m p).getD []) ++ [e.1])
          else m)
        m)
    []

/-- `while (laneInUse.has(assignedLane)) assignedLane++`: the lowest free
lane at or above `i`.  The JS loop is unbounded; with `used.length + 1`
probes it always finds a free lane (pigeonhole), so the fuelled version
agrees with it. -/
def firstFreeLane (used : List (Nat × String)) : Nat → Nat → Nat
  | 0, i => i
  | fuel + 1, i => if jhasN used i then firstFreeLane used fuel (i + 1) else i

/-- The body of the `for (const id of topoOrder)` loop of `assignLanes`.
State: (lanes, laneInUse). -/
def assignLaneStep (commits : CommitMap)
    (childrenOf : List (String × List String))
    (st : List (String × Nat) × List (Nat × String)) (id : String) :
    List (String × Nat) × List (Nat × String) :=
  match jget commits id with
  | none => st
  | some commit =>
    let hintLane : Option Nat :=
      match commit.branchHints with
      | some (h :: _) =>
        let hint := strToLower h
        if hint == "main" || hint == "master" then some 0 else none
      | _ => none
    let inherited : Option Nat :=
      match hintLane with
      | some l => some l
      | none =>
        match commit.parents with
        | [] => none
        | firstParent :: _ =>
          match jget st.1 firstParent with
          | none => none
          | some parentLane =>
            let parentChildren := (jget childrenOf firstParent).getD []
            if parentChildren.length == 1 ||
                parentChildren.headD "" == id then some parentLane
            else none
    let assignedLane :=
      match inherited with
      | some l => l
      | none => firstFreeLane st.2 (st.2.length + 1) 0
    (jset st.1 id assignedLane, jsetN st.2 assignedLane id)

/-- `assignLanes` from graph.ts. -/
def assignLanes (commits : CommitMap) (topoOrder : List String) :
    List (String × Nat) :=
  (topoOrder.foldl (assignLaneStep commits (childrenOfMap commits)) ([], [])).1

/-! ## `computeMetrics` (graph.ts) -/

/-- The running state of the single pass in `computeMetrics`.  `minTime`
starts at `Infinity` and `maxTime` at `-Infinity`; both are modelled as
`none`. -/
structure MetricsAcc where
  authorCommits : List (String × Nat)
  mergeCount : Nat
  totalAdditions : Int
  totalDeletions : Int
  minTime : Option Int
  maxTime : Option Int

/-- One iteration of the `for (const commit of commits.values())` loop. -/
def metricsStep (acc : MetricsAcc) (commit : CommitNode) : MetricsAcc :=
  let count := (jget acc.authorCommits commit.authorName).getD 0
  { authorCommits := jset acc.authorCommits commit.authorName (count + 1)
    mergeCount :=
      if commit.parents.length > 1 then acc.mergeCount + 1 else acc.mergeCount
    totalAdditions :=
      acc.totalAdditions +
        match commit.stats with
        | some s => s.additions.getD 0
        | none => 0
    totalDeletions :=
      acc.totalDeletions +
        match commit.stats with
        | some s => s.deletions.getD 0
        | none => 0
    minTime :=
      match acc.minTime with
      | none => some commit.authoredAt
      | some m => if commit.authoredAt < m then some commit.authoredAt else some m
    maxTime :=
      match acc.maxTime with
      | none => some commit.authoredAt
      | some m => if commit.authoredAt > m then some commit.authoredAt else some m }

/-- `computeMetrics` from graph.ts. -/
def computeMetrics (commits : CommitMap) : RepoMetrics :=
  let acc := (commits.map (·.2)).foldl metricsStep
    { authorCommits := [], mergeCount := 0, totalAdditions := 0,
      totalDeletions := 0, minTime := none, maxTime := none }
  { commitCount := commits.length
    mergeCount := acc.mergeCount
    authorCount := acc.authorCommits.length
    authorCommits := acc.authorCommits
    totalAdditions := acc.totalAdditions
    totalDeletions := acc.totalDeletions
    timeSpan :=
      match acc.minTime, acc.maxTime with
      | some mn, some mx => if mx > mn then mx - mn else 0
      | _, _ => 0 }

/-! ## `generateEdges` (graph.ts)

The first pass of the source function fills a `mergeTargets` set that is
never read afterwards (dead state); only the edge-creating second pass is
modelled. -/

/-- `generateEdges` from graph.ts (second pass; the graph argument is the
commit map, the only field read). -/
def generateEdges (commits : CommitMap) : List CommitEdge :=
  commits.foldl
    (fun edges e =>
      e.2.parents.foldl
        (fun edges parentId =>
          if jhas commits parentId then
            edges ++ [⟨parentId, e.1, e.2.parents.length > 1⟩]
          else edges)
        edges)
    []

/-! ## `buildRepoGraph` (graph.ts) -/

/-- The `else if` chain of the default-head selection in `buildRepoGraph`
(everything after the repository-declared-default check):
`main`, then `master`, then the first ref in map iteration order, then the
last entry of the topological order, then the initial `''`. -/
def defaultHeadFallback (refs : List (String × String))
    (topoOrder : List String) : String :=
  if jhas refs "main" then (jget refs "main").getD ""
  else if jhas refs "master" then (jget refs "master").getD ""
  else
    match refs with
    | r :: _ => r.2
    | [] =>
      match topoOrder.getLast? with
      | some l => l
      | none => ""

/-- `buildRepoGraph` from graph.ts.  `defaultBranch` is the optional third
parameter; the JS guard `if (defaultBranch && ...)` also rejects the empty
string (falsy). -/
def buildRepoGraph (commits : CommitMap) (refs : List (String × String))
    (defaultBranch : Option String) : RepoGraph :=
  let topoOrder := buildTopoOrder commits
  let lanes := assignLanes commits topoOrder
  let metrics := computeMetrics commits
  let defaultHead :=
    match defaultBranch with
    | some db =>
      if db ≠ "" ∧ jhas refs db then (jget refs db).getD ""
      else defaultHeadFallback refs topoOrder
    | none => defaultHeadFallback refs topoOrder
  { commits := commits, heads := refs, defaultHead := defaultHead,
    topoOrder := topoOrder, lanes := lanes, metrics := metrics }

/-! ## `parseCommitObject` (import-local git parsing)

The commit body is handled as the text produced by `TextDecoder` (byte→text
decoding is external).  `Date.now()` is modelled by the explicit `now`
parameter.  The author line is matched against the JS regular expression
`/^author (.+) <[^>]+> (\d+)/`; `.` does not match line terminators and the
quantifiers are greedy (backtracking picks the longest `(.+)`). -/

/-- Decimal value of a digit string (JS `parseInt(digits, 10)` on a
nonempty all-digit capture). -/
def digitsToNat (ds : List Char) : Nat :=
  ds.foldl (fun n c => n * 10 + (c.toNat - '0'.toNat)) 0

/-- Try to match ` <[^>]+> (\d+)` at the current position, with `g1rev` the
reversed candidate capture for `(.+)`. -/
def matchAuthorTail (g1rev : List Char) (rest : List Char) :
    Option (String × Int) :=
  match rest with
  | ' ' :: '<' :: r2 =>
    let e := r2.takeWhile (fun c => c ≠ '>')
    if e.isEmpty then none
    else
      match r2.dropWhile (fun c => c ≠ '>') with
      | '>' :: ' ' :: r4 =>
        let ds := r4.takeWhile Char.isDigit
        if ds.isEmpty then none
        else some (String.mk g1rev.reverse, (digitsToNat ds : Int))
      | _ => none
  | _ => none

/-- Greedy search for the split between `(.+)` and the rest of the pattern:
prefer extending the capture (longest match), falling back to matching the
tail here.  `.` does not match `\n` or `\r`. -/
def matchAuthorLoop (g1rev : List Char) (rest : List Char) :
    Option (String × Int) :=
  match rest with
  | [] => none
  | c :: rs =>
    let deeper :=
      if c = '\n' ∨ c = '\r' then none else matchAuthorLoop (c :: g1rev) rs
    match deeper with
    | some r => some r
    | none => if g1rev.isEmpty then none else matchAuthorTail g1rev rest

/-- `line.match(/^author (.+) <[^>]+> (\d+)/)`, returning the two captures
(author name, already-parsed timestamp). -/
def matchAuthor (line : String) : Option (String × Int) :=
  if strStartsWith line "author " then matchAuthorLoop [] (strDrop line 7).data
  else none

/-- The record produced by `parseCommitObject`. -/
structure ParsedCommit where
  parents : List String
  authorName : String
  authoredAt : Int
  message : String
  deriving Repr, DecidableEq

/-- The header-scanning `for` loop of `parseCommitObject`: collect `parent `
lines, remember the last matching `author ` line, and stop at the first
empty line, returning `messageStart` (which keeps its initial value 0 when
no blank line exists). -/
def parseCommitLoop :
    List String → Nat → List String → String → Int →
    List String × String × Int × Nat
  | [], _, parents, name, ts => (parents, name, ts, 0)
  | line :: rest, i, parents, name, ts =>
    if line == "" then (parents, name, ts, i + 1)
    else if strStartsWith line "parent " then
      parseCommitLoop rest (i + 1) (parents ++ [strDrop line 7]) name ts
    else if strStartsWith line "author " then
      match matchAuthor line with
      | some (n, t) => parseCommitLoop rest (i + 1) parents n (t * 1000)
      | none => parseCommitLoop rest (i + 1) parents name ts
    else parseCommitLoop rest (i + 1) parents name ts

/-- `parseCommitObject` from the git importer.  The TypeScript return type
admits `null` but the function always returns a record; `authorName` defaults
to `'Unknown'` and `authoredAt` to `Date.now()` (the `now` parameter). -/
def parseCommitObject (text : String) (now : Int) : Option ParsedCommit :=
  let lines := splitLines text
  let r := parseCommitLoop lines 0 [] "Unknown" now
  some { parents := r.1, authorName := r.2.1, authoredAt := r.2.2.1,
         message := joinLines (lines.drop r.2.2.2) }

/-! ## Pack index parsing (`parsePackIndex`)

Index bytes are a `List Nat` of byte values.  `DataView.getUint32` reads
big-endian and throws a `RangeError` past the end of the buffer, modelled as
`none`; a thrown error propagates to the caller (`loadPackIndex` catches it
and yields no index). -/

/-- `DataView.getUint32` (big-endian, bounds-checked). -/
def getUint32 (data : List Nat) (i : Nat) : Option Nat :=
  if i + 4 ≤ data.length then
    some (data.getD i 0 * 0x1000000 + data.getD (i + 1) 0 * 0x10000 +
          data.getD (i + 2) 0 * 0x100 + data.getD (i + 3) 0)
  else none

/-- `b.toString(16).padStart(2, '0')` for a byte value. -/
def byteToHex (b : Nat) : String :=
  let digit := fun n => "0123456789abcdef".toList.getD n '0'
  String.mk [digit (b / 16 % 16), digit (b % 16)]

/-- Hex rendering of a 20-byte hash slice
(`Array.from(data.slice(off, off+20)).map(toString(16)...).join('')`);
`slice` clamps at the end of the buffer. -/
def shaHex (data : List Nat) (off : Nat) : String :=
  String.join ((((data.drop off).take 20)).map byteToHex)

/-- The `for (let i = 0; i < totalObjects; i++)` loop of `parsePackIndex`.
A high bit set in the 4-byte offset makes it an index into the 64-bit
overflow table. -/
def parsePackIndexLoop (data : List Nat)
    (shaTableStart offsetTableStart largeOffsetTableStart : Nat) :
    Nat → Nat → List (String × Nat) → Option (List (String × Nat))
  | 0, _, offsets => some offsets
  | n + 1, i, offsets =>
    let sha := shaHex data (shaTableStart + i * 20)
    match getUint32 data (offsetTableStart + i * 4) with
    | none => none
    | some offset32 =>
      if offset32 ≥ 0x80000000 then
        let largeOffsetIndex := offset32 - 0x80000000
        let largeOffsetPos := largeOffsetTableStart + largeOffsetIndex * 8
        match getUint32 data largeOffsetPos,
              getUint32 data (largeOffsetPos + 4) with
        | some high, some low =>
          parsePackIndexLoop data shaTableStart offsetTableStart
            largeOffsetTableStart n (i + 1)
            (jset offsets sha (high * 0x100000000 + low))
        | _, _ => none
      else
        parsePackIndexLoop data shaTableStart offsetTableStart
          largeOffsetTableStart n (i + 1) (jset offsets sha offset32)

/-- `parsePackIndex` from the git importer: magic/version check, then the
entry loop.  A wrong magic or version returns the (still empty) offsets
map; a read past the end of the buffer throws (`none`). -/
def parsePackIndex (data : List Nat) : Option (List (String × Nat)) :=
  match getUint32 data 0 with
  | none => none
  | some magic =>
    if magic ≠ 0xff744f63 then some []
    else
      match getUint32 data 4 with
      | none => none
      | some version =>
        if version ≠ 2 then some []
        else
          let fanoutEnd := 8 + 256 * 4
          match getUint32 data (fanoutEnd - 4) with
          | none => none
          | some totalObjects =>
            let shaTableStart := fanoutEnd
            let shaTableEnd := shaTableStart + totalObjects * 20
            let crcTableEnd := shaTableEnd + totalObjects * 4
            let offsetTableStart := crcTableEnd
            let offsetTableEnd := offsetTableStart + totalObjects * 4
            parsePackIndexLoop data shaTableStart offsetTableStart
              offsetTableEnd totalObjects 0 []

/-! ## JS 32-bit integer operations

`size |= (byte & 0x7f) << shift` style accumulations in the pack/delta
parsers use JS bitwise operators, which coerce to signed 32-bit integers
and take the shift count modulo 32. -/

/-- Wrap an integer to the signed 32-bit range (JS `ToInt32`). -/
def toInt32 (n : Int) : Int :=
  let m := n % 4294967296
  if m < 2147483648 then m else m - 4294967296

/-- JS `a << s`. -/
def jsShl (a : Int) (s : Nat) : Int :=
  toInt32 (toInt32 a * 2 ^ (s % 32))

/-- JS `a | b` (bitwise or on the 32-bit wraps of both operands). -/
def jsOr (a b : Int) : Int :=
  toInt32 (Int.ofNat (Nat.lor (a % 4294967296).toNat (b % 4294967296).toNat))

/-- JS `Uint8Array.prototype.slice(s, e)`: negative indices count from the
end, and both ends clamp to the buffer. -/
def jsSlice (l : List Nat) (s e : Int) : List Nat :=
  let len : Int := l.length
  let s' := if s < 0 then max (len + s) 0 else min s len
  let e' := if e < 0 then max (len + e) 0 else min e len
  (l.take e'.toNat).drop s'.toNat

/-- `result.set(src, pos)` on a typed array: in-place overwrite, throwing a
`RangeError` (`none`) when the source does not fit. -/
def jsTypedSet (result src : List Nat) (pos : Nat) : Option (List Nat) :=
  if pos + src.length ≤ result.length then
    some (result.take pos ++ src ++ result.drop (pos + src.length))
  else none

/-! ## `applyDelta`

Byte reads use `delta[pos++]`; reading past the end of a `Uint8Array`
yields `undefined`, which all the bitwise consumers coerce to 0, so the
list-consuming model reads `headD 0`/`tail`.  Byte values are `< 256` in a
`Uint8Array`, so `b & 0x80` is translated as `128 ≤ b` and `b & 0x7f` as
`b % 128`. -/

/-- The first header varint of a delta (base size): consumed but unused. -/
def skipVarint : List Nat → List Nat
  | [] => []
  | b :: rs => if 128 ≤ b then skipVarint rs else rs

/-- The second header varint (result size):
`resultSize |= (byte & 0x7f) << shift` with JS 32-bit semantics. -/
def readSizeVarint : List Nat → Int → Nat → Int × List Nat
  | [], size, _ => (size, [])
  | b :: rs, size, shift =>
    let size' := jsOr size (jsShl ((b % 128 : Nat) : Int) shift)
    if 128 ≤ b then readSizeVarint rs size' (shift + 7) else (size', rs)

/-- Read one operand byte when the corresponding command bit is set. -/
def readByteIf (b : Bool) (l : List Nat) : Nat × List Nat :=
  if b then (l.headD 0, l.tail) else (0, l)

theorem readByteIf_length_le (b : Bool) (l : List Nat) :
    (readByteIf b l).2.length ≤ l.length := by
  cases b
  · simp [readByteIf]
  · cases l <;> simp [readByteIf]

/-- The state of the delta stream after the first `k` conditional operand
reads of a copy command (operand `i` is read exactly when command bit `i`
is set, in order `0x01, 0x02, …, 0x40`). -/
def operandRest (cmd : Nat) (rest : List Nat) : Nat → List Nat
  | 0 => rest
  | k + 1 => (readByteIf (cmd.testBit k) (operandRest cmd rest k)).2

/-- The value contributed by operand `k` of a copy command: the byte read
when bit `k` of the command is set, 0 otherwise. -/
def operandVal (cmd : Nat) (rest : List Nat) (k : Nat) : Nat :=
  (readByteIf (cmd.testBit k) (operandRest cmd rest k)).1

theorem operandRest_length_le (cmd : Nat) (rest : List Nat) (k : Nat) :
    (operandRest cmd rest k).length ≤ rest.length := by
  induction k with
  | zero => exact le_refl _
  | succ k ih => exact le_trans (readByteIf_length_le _ _) ih

/-- `copyOffset |= byte << 0/8/16/24` over the four offset operands. -/
def copyCmdOffset (cmd : Nat) (rest : List Nat) : Int :=
  jsOr (jsOr (jsOr ((operandVal cmd rest 0 : Nat) : Int)
    (jsShl ((operandVal cmd rest 1 : Nat) : Int) 8))
    (jsShl ((operandVal cmd rest 2 : Nat) : Int) 16))
    (jsShl ((operandVal cmd rest 3 : Nat) : Int) 24)

/-- `copySize |= byte << 0/8/16` over the three size operands, with
`if (copySize === 0) copySize = 0x10000`. -/
def copyCmdSize (cmd : Nat) (rest : List Nat) : Int :=
  if jsOr (jsOr ((operandVal cmd rest 4 : Nat) : Int)
      (jsShl ((operandVal cmd rest 5 : Nat) : Int) 8))
      (jsShl ((operandVal cmd rest 6 : Nat) : Int) 16) = 0 then 0x10000
  else jsOr (jsOr ((operandVal cmd rest 4 : Nat) : Int)
    (jsShl ((operandVal cmd rest 5 : Nat) : Int) 8))
    (jsShl ((operandVal cmd rest 6 : Nat) : Int) 16)

/-- The copy-command body of the instruction loop of `applyDelta`: read the
operand bytes selected by the low seven command bits and copy
`base[offset..offset+size]` into the output.  Returns the updated output,
the remaining delta bytes and the new output position (`none` on the
typed-array `RangeError`). -/
def applyCopyCmd (base result : List Nat) (cmd : Nat) (rest : List Nat)
    (resultPos : Nat) : Option (List Nat × List Nat × Nat) :=
  (jsTypedSet result
      (jsSlice base (copyCmdOffset cmd rest)
        (copyCmdOffset cmd rest + copyCmdSize cmd rest)) resultPos).map
    (fun result' => (result', operandRest cmd rest 7,
      resultPos + (copyCmdSize cmd rest).toNat))

theorem jsTypedSet_length {result src : List Nat} {pos : Nat} {r : List Nat}
    (h : jsTypedSet result src pos = some r) : r.length = result.length := by
  unfold jsTypedSet at h
  split at h
  · cases h
    simp only [List.length_append, List.length_take, List.length_drop]
    omega
  · cases h

theorem applyCopyCmd_rest_length {base result : List Nat} {cmd : Nat}
    {rest : List Nat} {resultPos : Nat} {out : List Nat × List Nat × Nat}
    (h : applyCopyCmd base result cmd rest resultPos = some out) :
    out.2.1.length ≤ rest.length := by
  unfold applyCopyCmd at h
  rw [Option.map_eq_some'] at h
  obtain ⟨a, _, ha⟩ := h
  rw [← ha]
  exact operandRest_length_le _ _ _

theorem applyCopyCmd_result_length {base result : List Nat} {cmd : Nat}
    {rest : List Nat} {resultPos : Nat} {out : List Nat × List Nat × Nat}
    (h : applyCopyCmd base result cmd rest resultPos = some out) :
    out.1.length = result.length := by
  unfold applyCopyCmd at h
  rw [Option.map_eq_some'] at h
  obtain ⟨a, ha, hb⟩ := h
  rw [← hb]
  exact jsTypedSet_length ha

/-- One iteration of the instruction loop of `applyDelta`: dispatch on the
command byte (copy / insert / no-op) and return the updated output, the
remaining delta bytes and the new output position (`none` on a thrown
`RangeError`). -/
def applyDeltaStep (base result : List Nat) (cmd : Nat) (rest : List Nat)
    (resultPos : Nat) : Option (List Nat × List Nat × Nat) :=
  if cmd.testBit 7 then applyCopyCmd base result cmd rest resultPos
  else if cmd > 0 then
    (jsTypedSet result (rest.take cmd) resultPos).map
      (fun result' => (result', rest.drop cmd, resultPos + cmd))
  else some (result, rest, resultPos)

theorem applyDeltaStep_rest_length {base result : List Nat} {cmd : Nat}
    {rest : List Nat} {resultPos : Nat} {out : List Nat × List Nat × Nat}
    (h : applyDeltaStep base result cmd rest resultPos = some out) :
    out.2.1.length ≤ rest.length := by
  unfold applyDeltaStep at h
  split at h
  · exact applyCopyCmd_rest_length h
  · split at h
    · rw [Option.map_eq_some'] at h
      obtain ⟨a, _, ha⟩ := h
      rw [← ha]
      simp only [List.length_drop]
      omega
    · cases h
      exact le_refl _

theorem applyDeltaStep_result_length {base result : List Nat} {cmd : Nat}
    {rest : List Nat} {resultPos : Nat} {out : List Nat × List Nat × Nat}
    (h : applyDeltaStep base result cmd rest resultPos = some out) :
    out.1.length = result.length := by
  unfold applyDeltaStep at h
  split at h
  · exact applyCopyCmd_result_length h
  · split at h
    · rw [Option.map_eq_some'] at h
      obtain ⟨a, ha, hb⟩ := h
      rw [← hb]
      exact jsTypedSet_length ha
    · cases h
      rfl

/-- The `while (pos < delta.length)` instruction loop of `applyDelta`:
copy commands (high bit set) and insert commands (positive low byte).
A zero command byte does nothing.  The JS loop needs no fuel; here every
iteration consumes one unit of fuel *and* at least the command byte of the
stream, so starting the loop with `delta.length` fuel (as `applyDelta`
does) the fuel-exhausted branch is unreachable. -/
def applyDeltaLoop (base : List Nat) :
    Nat → List Nat → List Nat → Nat → Option (List Nat)
  | _, [], result, _ => some result
  | 0, _ :: _, result, _ => some result
  | fuel + 1, cmd :: rest, result, resultPos =>
    match applyDeltaStep base result cmd rest resultPos with
    | none => none
    | some out => applyDeltaLoop base fuel out.2.1 out.1 out.2.2

/-- `applyDelta` from the git importer.  The output buffer is allocated at
the declared result size (`new Uint8Array(resultSize)` throws on a negative
32-bit size); the instruction loop writes into it in place. -/
def applyDelta (base delta : List Nat) : Option (List Nat) :=
  let r1 := skipVarint delta
  let sz := readSizeVarint r1 0 0
  if sz.1 < 0 then none
  else applyDeltaLoop base sz.2.length sz.2 (List.replicate sz.1.toNat 0) 0

/-! ## `readPackObject` and the offset-backreference varint -/

/-- The `while (byte & 0x80)` continuation loop of the OFS_DELTA
backreference read: `baseOffset = ((baseOffset + 1) << 7) | (byte & 0x7f)`
— JS `<<` and `|` wrap to signed 32 bits — with a bounds check
(`return null`) before each continuation byte. -/
def readOfsVarintLoop : Int → List Nat → Option (Int × List Nat)
  | _, [] => none
  | base, b :: rs =>
    let base' := jsOr (jsShl (base + 1) 7) ((b % 128 : Nat) : Int)
    if 128 ≤ b then readOfsVarintLoop base' rs else some (base', rs)

/-- The OFS_DELTA backreference varint read of `readPackObject`
(`byte = packData[pos++]; baseOffset = byte & 0x7f; while (byte & 0x80) ...`).
The first byte read is not bounds-checked: past the end of the buffer it
reads `undefined`, which coerces to 0 and ends the loop. -/
def readOfsVarint : List Nat → Option (Int × List Nat)
  | [] => some (0, [])
  | b :: rs =>
    let base : Int := ((b % 128 : Nat) : Int)
    if 128 ≤ b then readOfsVarintLoop base rs else some (base, rs)

/-- Modelled from the spec: the offset-backreference varint *encoder* is not
part of the repository (the source only decodes); this is the scheme the
spec describes — 7-bit groups, most significant first, continuation bit on
every byte but the last, with the "add one" correction applied at every
continuation step (git's ofs-delta encoding).  `encodeOfsVarintHi v`
encodes a value all of whose bytes carry the continuation bit. -/
def encodeOfsVarintHi (v : Nat) : List Nat :=
  if h : v < 128 then [128 + v]
  else encodeOfsVarintHi (v / 128 - 1) ++ [128 + v % 128]
termination_by v
decreasing_by
  have : v / 128 < v := Nat.div_lt_self (by omega) (by omega)
  omega

/-- Modelled from the spec: full encoder for the offset-backreference
varint scheme (final byte without continuation bit). -/
def encodeOfsVarint (v : Nat) : List Nat :=
  if v < 128 then [v] else encodeOfsVarintHi (v / 128 - 1) ++ [v % 128]

/-- `inflatePackData` from the git importer: sniff a zlib header, otherwise
raw DEFLATE.  The `fflate` decompressors are external collaborators,
passed as functions (`none` models a decompression error being thrown). -/
def inflatePackData (inflateRaw unzlib : List Nat → Option (List Nat))
    (data : List Nat) : Option (List Nat) :=
  match data with
  | b0 :: b1 :: _ =>
    if b0 = 0x78 ∧ (b1 = 0x01 ∨ b1 = 0x5e ∨ b1 = 0x9c ∨ b1 = 0xda) then
      unzlib data
    else inflateRaw data
  | _ => inflateRaw data

/-- The guarded `while (byte & 0x80)` loop of the pack object size header
(`size |= (byte & 0x7f) << shift`, JS 32-bit semantics; `return null` when
the continuation runs past the buffer). -/
def readPackSizeLoop : List Nat → Int → Nat → Option (Int × List Nat)
  | [], _, _ => none
  | b :: rs, size, shift =>
    let size' := jsOr size (jsShl ((b % 128 : Nat) : Int) shift)
    if 128 ≤ b then readPackSizeLoop rs size' (shift + 7) else some (size', rs)

/-- `const types = ['', 'commit', 'tree', 'blob', 'tag', '', 'ofs_delta',
'ref_delta']` and the `types[type] || 'unknown'` fallback. -/
def packTypeName (t : Nat) : String :=
  let s := (["", "commit", "tree", "blob", "tag", "", "ofs_delta",
    "ref_delta"]).getD t ""
  if s = "" then "unknown" else s

/-- `readPackObject` from the git importer: parse the type/size header at
`offset`, then decompress a literal object, or resolve an OFS_DELTA /
REF_DELTA base recursively (depth-bounded at 50) and apply the delta.
All thrown errors and all failure returns are `none`. -/
def readPackObject (inflateRaw unzlib : List Nat → Option (List Nat))
    (packData : List Nat) (packIndexOffsets : List (String × Nat))
    (offset : Int) (depth : Nat) : Option (String × List Nat) :=
  if depth > 50 then none
  else if offset < 0 ∨ (packData.length : Int) ≤ offset then none
  else
    let pos := offset.toNat
    let byte0 := packData.getD pos 0
    let type := byte0 / 16 % 8
    let size0 : Int := byte0 % 16
    let rest0 := packData.drop (pos + 1)
    match (if 128 ≤ byte0 then readPackSizeLoop rest0 size0 4
           else some (size0, rest0)) with
    | none => none
    | some (size, rest1) =>
      if type = 6 then
        match readOfsVarint rest1 with
        | none => none
        | some (baseOffset, rest2) =>
          match inflatePackData inflateRaw unzlib rest2 with
          | none => none
          | some deltaData =>
            match readPackObject inflateRaw unzlib packData packIndexOffsets
                (offset - baseOffset) (depth + 1) with
            | none => none
            | some baseResult =>
              match applyDelta baseResult.2 deltaData with
              | none => none
              | some result => some (baseResult.1, result)
      else if type = 7 then
        let baseOid := shaHex rest1 0
        let rest2 := rest1.drop 20
        match inflatePackData inflateRaw unzlib rest2 with
        | none => none
        | some deltaData =>
          match jget packIndexOffsets baseOid with
          | none => none
          | some baseOffset =>
            match readPackObject inflateRaw unzlib packData packIndexOffsets
                (baseOffset : Int) (depth + 1) with
            | none => none
            | some baseResult =>
              match applyDelta baseResult.2 deltaData with
              | none => none
              | some result => some (baseResult.1, result)
      else
        match inflatePackData inflateRaw unzlib rest1 with
        | none => none
        | some objectData => some (packTypeName type, jsSlice objectData 0 size)
termination_by 51 - depth
decreasing_by
  · omega
  · omega

/-! ## The commit walk of `parseFromFS`

`readGitObject` (loose lookup, pack lookup, decompression) is modelled as a
finite object store mapping ids to outcomes: a successful decode (type and
decoded body text), a `null` return (object absent or unreadable), or a
thrown error.  `Date.now()` inside `parseCommitObject` is again the `now`
parameter.  The work-set `toVisit` is a stack (`pop` from the end of a JS
array); it is modelled with the top of the stack at the head. -/

/-- Outcome of `readGitObject` for one object id. -/
inductive GitObj where
  | missing
  | thrown
  | obj (type : String) (data : String)
  deriving Repr, DecidableEq

/-- The object store; ids not present read as `null` (`missing`). -/
def readStore (store : List (String × GitObj)) (oid : String) : GitObj :=
  (jget store oid).getD .missing

/-- Every id the walk can ever push: the ref targets plus the parents of
every commit object in the store (used only for the termination measure). -/
def walkCands (store : List (String × GitObj)) (roots : List String)
    (now : Int) : List String :=
  roots ++ store.flatMap
    (fun e =>
      match e.2 with
      | .obj t d =>
        if t = "commit" then
          match parseCommitObject d now with
          | some p => p.parents
          | none => []
        else []
      | _ => [])

theorem jget_mem {α : Type} {m : List (String × α)} {k : String} {v : α}
    (h : jget m k = some v) : (k, v) ∈ m := by
  unfold jget at h
  cases hf : m.find? (fun e => e.1 == k) with
  | none => simp [hf] at h
  | some e =>
    simp [hf] at h
    have hm := List.mem_of_find?_eq_some hf
    have hk := List.find?_some hf
    simp at hk
    cases e with
    | mk a b => simp_all

theorem mem_walkCands_of_parent {store : List (String × GitObj)}
    {roots : List String} {now : Int} {oid d : String} {p : ParsedCommit}
    (hread : readStore store oid = .obj "commit" d)
    (hparse : parseCommitObject d now = some p) :
    ∀ q ∈ p.parents, q ∈ walkCands store roots now := by
  intro q hq
  unfold readStore at hread
  cases hj : jget store oid with
  | none => simp [hj] at hread
  | some g =>
    simp [hj] at hread
    subst hread
    have hm := jget_mem hj
    unfold walkCands
    refine List.mem_append.2 (Or.inr ?_)
    refine List.mem_flatMap.2 ⟨(oid, GitObj.obj "commit" d), hm, ?_⟩
    simp [hparse, hq]

/-- The termination measure of the walk: ids that may still require a fresh
visit, paired with the current work-set size. -/
def walkMeasure (cands visited toVisit : List String) : Nat × Nat :=
  (((cands.toFinset ∪ toVisit.toFinset) \ visited.toFinset).card,
   toVisit.length)

theorem walkMeasure_fst_mono {cands visited toVisit toVisit' : List String}
    (h : toVisit'.toFinset ⊆ cands.toFinset ∪ toVisit.toFinset) :
    (walkMeasure cands visited toVisit').1 ≤
      (walkMeasure cands visited toVisit).1 := by
  apply Finset.card_le_card
  apply Finset.sdiff_subset_sdiff _ (le_refl _)
  intro x hx
  rcases Finset.mem_union.1 hx with h1 | h1
  · exact Finset.mem_union.2 (Or.inl h1)
  · exact h h1

theorem walkMeasure_fst_lt {cands visited toVisit toVisit' : List String}
    {oid : String}
    (h : toVisit'.toFinset ⊆ cands.toFinset ∪ toVisit.toFinset)
    (hmem : oid ∈ toVisit) (hnv : oid ∉ visited) :
    (walkMeasure cands (oid :: visited) toVisit').1 <
      (walkMeasure cands visited toVisit).1 := by
  have hoidU : oid ∈ (cands.toFinset ∪ toVisit.toFinset) \ visited.toFinset := by
    refine Finset.mem_sdiff.2 ⟨?_, ?_⟩
    · exact Finset.mem_union.2 (Or.inr (List.mem_toFinset.2 hmem))
    · simpa [List.mem_toFinset] using hnv
  calc (walkMeasure cands (oid :: visited) toVisit').1
      ≤ (((cands.toFinset ∪ toVisit.toFinset) \ visited.toFinset).erase oid).card := by
        apply Finset.card_le_card
        intro x hx
        simp only [Finset.mem_sdiff, List.toFinset_cons, Finset.mem_insert,
          Finset.mem_union, List.mem_toFinset] at hx
        simp only [Finset.mem_erase, Finset.mem_sdiff, Finset.mem_union,
          List.mem_toFinset]
        obtain ⟨hx1, hx2⟩ := hx
        push_neg at hx2
        refine ⟨hx2.1, ?_, hx2.2⟩
        rcases hx1 with h1 | h1
        · exact Or.inl h1
        · have := h (List.mem_toFinset.2 h1)
          simpa [List.mem_toFinset] using this
    _ < _ := Finset.card_erase_lt_of_mem hoidU

theorem prodLex_of {a a' b b' : Nat}
    (h : a' < a ∨ (a' = a ∧ b' < b)) :
    Prod.Lex (· < ·) (· < ·) (a', b') (a, b) := by
  rcases h with h | ⟨h1, h2⟩
  · exact Prod.Lex.left _ _ h
  · subst h1
    exact Prod.Lex.right _ h2

theorem walkMeasure_pop (cands visited rest : List String) (oid : String) :
    Prod.Lex (· < ·) (· < ·) (walkMeasure cands visited rest)
      (walkMeasure cands visited (oid :: rest)) := by
  have hle := @walkMeasure_fst_mono cands visited (oid :: rest) rest
    (by
      intro x hx
      refine Finset.mem_union.2 (Or.inr ?_)
      simp only [List.mem_toFinset] at hx ⊢
      exact List.mem_cons_of_mem _ hx)
  have hm : (walkMeasure cands visited rest) =
      ((walkMeasure cands visited rest).1, (walkMeasure cands visited rest).2) := rfl
  rw [hm, show (walkMeasure cands visited (oid :: rest)) =
      ((walkMeasure cands visited (oid :: rest)).1,
       (walkMeasure cands visited (oid :: rest)).2) from rfl]
  apply prodLex_of
  rcases Nat.lt_or_ge (walkMeasure cands visited rest).1
      (walkMeasure cands visited (oid :: rest)).1 with h | h
  · exact Or.inl h
  · refine Or.inr ⟨le_antisymm hle h, ?_⟩
    simp [walkMeasure]

theorem walkMeasure_visit (cands visited rest toVisit' : List String)
    (oid : String)
    (hsub : toVisit'.toFinset ⊆ cands.toFinset ∪ (oid :: rest).toFinset)
    (hnv : oid ∉ visited) :
    Prod.Lex (· < ·) (· < ·) (walkMeasure cands (oid :: visited) toVisit')
      (walkMeasure cands visited (oid :: rest)) := by
  rw [show (walkMeasure cands (oid :: visited) toVisit') =
      ((walkMeasure cands (oid :: visited) toVisit').1,
       (walkMeasure cands (oid :: visited) toVisit').2) from rfl,
    show (walkMeasure cands visited (oid :: rest)) =
      ((walkMeasure cands visited (oid :: rest)).1,
       (walkMeasure cands visited (oid :: rest)).2) from rfl]
  apply prodLex_of
  exact Or.inl (walkMeasure_fst_lt hsub (List.mem_cons_self _ _) hnv)

/-- The `while (toVisit.length > 0)` walk of `parseFromFS`: pop an id, skip
it if already visited, read and parse it, record the commit (with branch
hints from `refs`) and push unvisited parents; decode failures (`null` or a
thrown error) are recorded in `failedReads` and the walk continues. -/
def walkGo (store : List (String × GitObj)) (refs : List (String × String))
    (now : Int) (visited toVisit : List String)
    (commits : CommitMap) (failed : List String) :
    CommitMap × List String :=
  match toVisit with
  | [] => (commits, failed)
  | oid :: rest =>
    if hv : oid ∈ visited then
      walkGo store refs now visited rest commits failed
    else
      match hread : readStore store oid with
      | .thrown =>
        walkGo store refs now (oid :: visited) rest commits (failed ++ [oid])
      | .missing =>
        walkGo store refs now (oid :: visited) rest commits (failed ++ [oid])
      | .obj t d =>
        if ht : t = "commit" then
          match hparse : parseCommitObject d now with
          | none => walkGo store refs now (oid :: visited) rest commits failed
          | some parsed =>
            let branchHints := (refs.filter (fun e => e.2 == oid)).map (·.1)
            let node : CommitNode :=
              { id := oid, parents := parsed.parents,
                authorName := parsed.authorName,
                authoredAt := parsed.authoredAt,
                messageSubject := (splitLines parsed.message).headD "",
                branchHints :=
                  if branchHints.length > 0 then some branchHints else none,
                stats := none }
            let toVisit' :=
              (parsed.parents.filter
                (fun p => !((oid :: visited).contains p))).reverse ++ rest
            walkGo store refs now (oid :: visited) toVisit'
              (jset commits oid node) failed
        else walkGo store refs now (oid :: visited) rest commits failed
termination_by walkMeasure (walkCands store (refs.map (·.2)) now) visited toVisit
decreasing_by
  · exact walkMeasure_pop _ _ _ _
  · refine walkMeasure_visit _ _ _ _ _ ?_ hv
    intro x hx
    refine Finset.mem_union.2 (Or.inr ?_)
    simp only [List.mem_toFinset] at hx ⊢
    exact List.mem_cons_of_mem _ hx
  · refine walkMeasure_visit _ _ _ _ _ ?_ hv
    intro x hx
    refine Finset.mem_union.2 (Or.inr ?_)
    simp only [List.mem_toFinset] at hx ⊢
    exact List.mem_cons_of_mem _ hx
  · refine walkMeasure_visit _ _ _ _ _ ?_ hv
    intro x hx
    refine Finset.mem_union.2 (Or.inr ?_)
    simp only [List.mem_toFinset] at hx ⊢
    exact List.mem_cons_of_mem _ hx
  · refine walkMeasure_visit _ _ _ _ _ ?_ hv
    intro x hx
    simp only [List.mem_toFinset, List.mem_append, List.mem_reverse,
      List.mem_filter] at hx
    rcases hx with ⟨hxp, _⟩ | hxr
    · subst ht
      exact Finset.mem_union.2 (Or.inl (List.mem_toFinset.2
        (mem_walkCands_of_parent hread hparse _ hxp)))
    · refine Finset.mem_union.2 (Or.inr ?_)
      simp only [List.mem_toFinset]
      exact List.mem_cons_of_mem _ hxr
  · refine walkMeasure_visit _ _ _ _ _ ?_ hv
    intro x hx
    refine Finset.mem_union.2 (Or.inr ?_)
    simp only [List.mem_toFinset] at hx ⊢
    exact List.mem_cons_of_mem _ hx

/-- The whole walk phase of `parseFromFS`: the work-set is seeded with all
ref targets (popped from the end, so reversed in the stack model). -/
def runWalk (store : List (String × GitObj)) (refs : List (String × String))
    (now : Int) : CommitMap × List String :=
  walkGo store refs now [] (refs.map (·.2)).reverse [] []

/-- The end of `parseFromFS`: the import fails (with the "no commits could
be read" error) exactly when the walk decoded no commits, and otherwise
builds the `RepoGraph`. -/
def walkImport (store : List (String × GitObj))
    (refs : List (String × String)) (now : Int)
    (defaultBranch : Option String) : Except String RepoGraph :=
  let r := runWalk store refs now
  if r.1.isEmpty then
    Except.error
      "No commits could be read from repository. Make sure your ZIP includes .git/objects."
  else Except.ok (buildRepoGraph r.1 refs defaultBranch)

/-! ## Association-list (JS `Map`) lemmas -/

theorem jget_nil {α : Type} (k : String) : jget ([] : List (String × α)) k = none := rfl

theorem jget_cons {α : Type} (e : String × α) (m : List (String × α)) (k : String) :
    jget (e :: m) k = if e.1 == k then some e.2 else jget m k := by
  by_cases h : e.1 == k <;> simp [jget, List.find?, h]

theorem jhas_cons {α : Type} (e : String × α) (m : List (String × α)) (k : String) :
    jhas (e :: m) k = (e.1 == k || jhas m k) := by
  by_cases h : e.1 == k <;> simp [jhas, List.find?, h]

theorem jhas_nil {α : Type} (k : String) : jhas ([] : List (String × α)) k = false := rfl

theorem jhas_iff_jget {α : Type} (m : List (String × α)) (k : String) :
    jhas m k = true ↔ ∃ v, jget m k = some v := by
  unfold jhas jget
  cases h : m.find? (fun e => e.1 == k) <;> simp [h]

theorem jset_of_jhas {α : Type} {m : List (String × α)} {k : String} (v : α)
    (h : jhas m k = true) :
    jset m k v = m.map (fun e => if e.1 == k then (k, v) else e) := by
  simp [jset, h]

theorem jset_of_not_jhas {α : Type} {m : List (String × α)} {k : String} (v : α)
    (h : jhas m k = false) :
    jset m k v = m ++ [(k, v)] := by
  simp [jset, h]

theorem jget_append {α : Type} (m₁ m₂ : List (String × α)) (k : String) :
    jget (m₁ ++ m₂) k =
      match jget m₁ k with
      | some v => some v
      | none => jget m₂ k := by
  induction m₁ with
  | nil => simp [jget_nil]
  | cons e m ih =>
    by_cases he : e.1 == k
    · simp [List.cons_append, jget_cons, he]
    · simp only [List.cons_append, jget_cons, he, if_false]
      exact ih

theorem jget_map_update_self {α : Type} (m : List (String × α)) (k : String) (v : α)
    (h : jhas m k = true) :
    jget (m.map (fun e => if e.1 == k then (k, v) else e)) k = some v := by
  induction m with
  | nil => simp [jhas] at h
  | cons e m ih =>
    rw [jhas_cons] at h
    by_cases he : e.1 == k
    · have hek : e.1 = k := by simpa using he
      simp [jget_cons, hek]
    · simp only [he, Bool.false_or] at h
      simp only [List.map_cons, he, if_false, jget_cons]
      rw [if_neg (by simpa using he)]
      exact ih h

theorem jget_jset_self {α : Type} (m : List (String × α)) (k : String) (v : α) :
    jget (jset m k v) k = some v := by
  by_cases h : jhas m k
  · rw [jset_of_jhas v h]
    exact jget_map_update_self m k v h
  · rw [jset_of_not_jhas v (Bool.not_eq_true _ ▸ h), jget_append]
    have hn : jget m k = none := by
      unfold jhas at h
      unfold jget
      cases hf : m.find? (fun e => e.1 == k) <;> simp [hf] at h ⊢
    simp [hn, jget_cons]

theorem jget_jset_ne {α : Type} (m : List (String × α)) (k k' : String) (v : α)
    (hk : k' ≠ k) :
    jget (jset m k v) k' = jget m k' := by
  by_cases h : jhas m k
  · rw [jset_of_jhas v h]
    clear h
    induction m with
    | nil => simp
    | cons e m ih =>
      by_cases he : e.1 == k
      · have hek : e.1 = k := by simpa using he
        simp only [List.map_cons, he, if_true, jget_cons]
        rw [if_neg (by simpa using (Ne.symm hk)),
          if_neg (by rw [hek]; simpa using (Ne.symm hk))]
        exact ih
      · have hef : (e.1 == k) = false := by simpa using he
        simp only [List.map_cons, hef, Bool.false_eq_true, if_false, jget_cons]
        by_cases he' : e.1 == k'
        · simp [he']
        · have hef' : (e.1 == k') = false := by simpa using he'
          simp only [hef', Bool.false_eq_true, if_false]
          exact ih
  · rw [jset_of_not_jhas v (Bool.not_eq_true _ ▸ h), jget_append]
    cases hf : jget m k' with
    | some w => simp
    | none =>
      simp only
      rw [jget_cons]
      rw [if_neg (by simpa using (Ne.symm hk))]
      simp [jget_nil]

theorem jget_jset {α : Type} (m : List (String × α)) (k k' : String) (v : α) :
    jget (jset m k v) k' = if k == k' then some v else jget m k' := by
  by_cases h : k == k'
  · have : k = k' := by simpa using h
    subst this
    simp [h, jget_jset_self]
  · have : k' ≠ k := fun he => by simp [he] at h
    simp [h, jget_jset_ne m k k' v this]

/-- For maps with no duplicate keys, membership determines lookup. -/
theorem jget_eq_of_mem_nodup {α : Type} {m : List (String × α)} {k : String}
    {v : α} (hnd : (m.map Prod.fst).Nodup) (hm : (k, v) ∈ m) :
    jget m k = some v := by
  induction m with
  | nil => simp at hm
  | cons e m ih =>
    simp only [List.map_cons, List.nodup_cons] at hnd
    rcases List.mem_cons.1 hm with he | hm'
    · subst he
      simp [jget_cons]
    · have hk : e.1 ≠ k := by
        intro hek
        exact hnd.1 (by
          rw [hek]
          exact List.mem_map.2 ⟨(k, v), hm', rfl⟩)
      rw [jget_cons]
      simp only [show (e.1 == k) = false by simpa using hk, if_false]
      exact ih hnd.2 hm'

/-! ## C4: offset-backreference varint round-trip -/

theorem toInt32_coe_of_lt (n : Nat) (h : n < 2147483648) :
    toInt32 (n : Int) = (n : Int) := by
  have h1 : ((n : Int)) % 4294967296 = (n : Int) :=
    Int.emod_eq_of_lt (Int.ofNat_nonneg n)
      (by exact_mod_cast (by omega : n < 4294967296))
  simp only [toInt32]
  rw [h1, if_pos (by exact_mod_cast h)]

/-- On a non-wrapping step, `((base) << 7) | low` is plain arithmetic. -/
theorem jsOr_shl7 (n d : Nat) (h31 : n * 128 + d < 2147483648)
    (hd : d < 128) :
    jsOr (jsShl (n : Int) 7) (d : Int) = ((n * 128 + d : Nat) : Int) := by
  have hle : n ≤ n * 128 := Nat.le_mul_of_pos_right n (by omega)
  have hn : n < 2147483648 := by omega
  have hn128 : n * 128 < 2147483648 := by omega
  have hshl : jsShl (n : Int) 7 = ((n * 128 : Nat) : Int) := by
    simp only [jsShl]
    rw [toInt32_coe_of_lt n hn]
    rw [show ((n : Int)) * 2 ^ (7 % 32) = ((n * 128 : Nat) : Int) from by
      push_cast
      ring]
    exact toInt32_coe_of_lt _ hn128
  rw [hshl]
  simp only [jsOr]
  have h1 : ((n * 128 : Nat) : Int) % 4294967296 = ((n * 128 : Nat) : Int) :=
    Int.emod_eq_of_lt (Int.ofNat_nonneg _)
      (by exact_mod_cast (by omega : n * 128 < 4294967296))
  have h2 : ((d : Nat) : Int) % 4294967296 = (d : Int) :=
    Int.emod_eq_of_lt (Int.ofNat_nonneg _)
      (by exact_mod_cast (by omega : d < 4294967296))
  rw [h1, h2, show (((n * 128 : Nat) : Int)).toNat = n * 128 from by omega,
    show (((d : Nat) : Int)).toNat = d from by omega]
  have h0 := Nat.mul_add_lt_is_or (show d < 2 ^ 7 from by simpa using hd) n
  rw [show (2 : Nat) ^ 7 * n = n * 128 from by ring] at h0
  have hlor : Nat.lor (n * 128) d = n * 128 + d := h0.symm
  rw [hlor]
  exact toInt32_coe_of_lt _ h31

theorem readOfsVarint_encodeOfsVarintHi (w : Nat) :
    w < 2147483648 →
    ∀ rest : List Nat,
      readOfsVarint (encodeOfsVarintHi w ++ rest) =
        readOfsVarintLoop ((w : Nat) : Int) rest := by
  induction w using Nat.strong_induction_on with
  | _ w ih =>
    intro hw rest
    by_cases h : w < 128
    · rw [encodeOfsVarintHi]
      simp only [h, dif_pos]
      have h1 : 128 ≤ 128 + w := by omega
      have h2 : (128 + w) % 128 = w := by omega
      simp [readOfsVarint, h1, h2]
    · rw [encodeOfsVarintHi, dif_neg h]
      simp only [List.append_assoc, List.cons_append, List.nil_append]
      have hdivle : w / 128 ≤ w := Nat.div_le_self _ _
      have hdlt : w / 128 - 1 < w := by
        have : w / 128 < w := Nat.div_lt_self (by omega) (by omega)
        omega
      rw [ih (w / 128 - 1) hdlt (by omega) _]
      have hb : 128 ≤ 128 + w % 128 := by omega
      have hm : (128 + w % 128) % 128 = w % 128 := by
        have : w % 128 < 128 := Nat.mod_lt _ (by omega)
        omega
      have h128 : 1 ≤ w / 128 := (Nat.one_le_div_iff (by omega)).2 (by omega)
      have hcast : ((w / 128 - 1 : Nat) : Int) + 1 = ((w / 128 : Nat) : Int) := by
        push_cast [h128]
        ring
      have hw' : w / 128 * 128 + w % 128 = w := by
        have h2 := Nat.div_add_mod w 128
        omega
      have hor := jsOr_shl7 (w / 128) (w % 128)
        (by rw [hw']; omega) (Nat.mod_lt _ (by omega))
      simp only [readOfsVarintLoop]
      rw [if_pos hb, hm, hcast, hor, hw']

/-- C4 (corrected): the OFS_DELTA backreference decoder of `readPackObject`
accumulates `base = ((base + 1) << 7) | (byte & 0x7f)` on every
continuation byte after the first, in JS signed-32-bit arithmetic.  For
every value below `2^31` (where no wrap can occur) decoding is a left
inverse of the spec's encoding scheme: decoding the encoding of `v`
(followed by any remaining pack bytes) yields exactly `v` and leaves the
remaining bytes untouched.  From `2^31` on the accumulator wraps negative,
so the round trip does not hold of the program for every non-negative
integer. -/
theorem readOfsVarint_encodeOfsVarint (v : Nat) (hv : v < 2147483648)
    (rest : List Nat) :
    readOfsVarint (encodeOfsVarint v ++ rest) = some ((v : Int), rest) := by
  by_cases h : v < 128
  · rw [encodeOfsVarint]
    simp only [h, if_pos]
    have h1 : ¬(128 ≤ v) := by omega
    have h2 : v % 128 = v := Nat.mod_eq_of_lt h
    simp [readOfsVarint, h1, h2]
  · rw [encodeOfsVarint, if_neg h]
    simp only [List.append_assoc, List.cons_append, List.nil_append]
    have hdivle : v / 128 ≤ v := Nat.div_le_self _ _
    rw [readOfsVarint_encodeOfsVarintHi (v / 128 - 1) (by omega) _]
    have hb : ¬(128 ≤ v % 128) := by
      have : v % 128 < 128 := Nat.mod_lt _ (by omega)
      omega
    have hm : v % 128 % 128 = v % 128 := by omega
    have h128 : 1 ≤ v / 128 := (Nat.one_le_div_iff (by omega)).2 (by omega)
    have hcast : ((v / 128 - 1 : Nat) : Int) + 1 = ((v / 128 : Nat) : Int) := by
      push_cast [h128]
      ring
    have hw' : v / 128 * 128 + v % 128 = v := by
      have h2 := Nat.div_add_mod v 128
      omega
    have hor := jsOr_shl7 (v / 128) (v % 128)
      (by rw [hw']; omega) (Nat.mod_lt _ (by omega))
    simp only [readOfsVarintLoop]
    rw [if_neg hb, hm, hcast, hor, hw']

/-- Witness for C4's bounded round trip at the two-byte value 300. -/
theorem readOfsVarint_encodeOfsVarint_witness :
    readOfsVarint (encodeOfsVarint 300 ++ [9]) =
      some (((300 : Nat) : Int), [9]) :=
  readOfsVarint_encodeOfsVarint 300 (by decide) [9]

/-- C4 counterexample: the encoding of `2^31` decodes through the code's
Int32-wrapping accumulator to `-2^31`, not `2^31`, refuting the round trip
for every non-negative integer. -/
theorem readOfsVarint_wraps_at_two_pow_31 :
    encodeOfsVarint 2147483648 = [134, 254, 254, 255, 0] ∧
    readOfsVarint (encodeOfsVarint 2147483648 ++ []) =
      some ((-2147483648 : Int), []) ∧
    (-2147483648 : Int) ≠ ((2147483648 : Nat) : Int) := by
  have henc : encodeOfsVarint 2147483648 = [134, 254, 254, 255, 0] := by
    rw [encodeOfsVarint, if_neg (by norm_num)]
    norm_num
    rw [encodeOfsVarintHi, dif_neg (by norm_num)]
    norm_num
    rw [encodeOfsVarintHi, dif_neg (by norm_num)]
    norm_num
    rw [encodeOfsVarintHi, dif_neg (by norm_num)]
    norm_num
    rw [encodeOfsVarintHi, dif_pos (by norm_num)]
    decide
  refine ⟨henc, ?_, by decide⟩
  rw [henc]
  decide

/-! ## C6: delta-chain depth bound -/

/-- C6: `readPackObject` refuses to recurse past depth 50: at any depth
greater than 50 it fails (returns the `null` failure) immediately, for every
pack, index, offset, and decompressor.  Together with the fact that the
recursion always increases `depth` by 1 (so the well-founded definition
above terminates on `51 - depth`), a delta chain longer than the bound
makes the decode fail rather than recurse unboundedly. -/
theorem readPackObject_depth_bound
    (inflateRaw unzlib : List Nat → Option (List Nat))
    (packData : List Nat) (packIndexOffsets : List (String × Nat))
    (offset : Int) (depth : Nat) (hdepth : 50 < depth) :
    readPackObject inflateRaw unzlib packData packIndexOffsets offset depth =
      none := by
  rw [readPackObject]
  simp [hdepth]

/-- Witness for C6 at a concrete depth-51 call. -/
theorem readPackObject_depth_bound_witness :
    readPackObject (fun _ => none) (fun _ => none) [] [] 0 51 = none :=
  readPackObject_depth_bound (fun _ => none) (fun _ => none) [] [] 0 51
    (by omega)

/-! ## C5: pack-index header validation -/

/-- C5 counterexample: a version-1-style index (its first word is a fan-out
count, not the v2 magic) does NOT make `parsePackIndex` fail — it returns
an ordinary (empty) offsets map, i.e. a lookup result, rather than an
`UnsupportedIndexVersion` failure (the failure channel of the reader is a
thrown error, modelled `none`, which only occurs for truncated reads). -/
theorem parsePackIndex_v1_returns_result :
    parsePackIndex [0, 0, 0, 2, 0, 0, 0, 0] = some [] := by decide

/-- C5 amended: `parsePackIndex` validates the 8-byte magic+version header,
and any input whose magic word differs from the version-2 magic
`0xff744f63` — or whose version word differs from 2 — yields an *empty
offsets map* (no lookup entries), not a distinct `UnsupportedIndexVersion`
error. -/
theorem parsePackIndex_bad_header :
    (∀ (data : List Nat) (m : Nat), getUint32 data 0 = some m →
      m ≠ 0xff744f63 → parsePackIndex data = some []) ∧
    (∀ (data : List Nat) (v : Nat), getUint32 data 0 = some 0xff744f63 →
      getUint32 data 4 = some v → v ≠ 2 → parsePackIndex data = some []) := by
  constructor
  · intro data m hm hne
    unfold parsePackIndex
    rw [hm]
    simp [hne]
  · intro data v hm hv hne
    unfold parsePackIndex
    rw [hm]
    simp [hv, hne]

/-- Witness for C5's amended theorem: a well-formed magic with version 1. -/
theorem parsePackIndex_bad_header_witness :
    parsePackIndex [0xff, 0x74, 0x4f, 0x63, 0, 0, 0, 1] = some [] :=
  parsePackIndex_bad_header.2 [0xff, 0x74, 0x4f, 0x63, 0, 0, 0, 1] 1
    (by decide) (by decide) (by decide)

/-! ## C3: delta output length -/

theorem applyDeltaLoop_length (base : List Nat) (fuel : Nat) :
    ∀ (delta result : List Nat) (resultPos : Nat) (r : List Nat),
      applyDeltaLoop base fuel delta result resultPos = some r →
      r.length = result.length := by
  induction fuel with
  | zero =>
    intro delta result resultPos r h
    cases delta <;> (rw [applyDeltaLoop] at h; cases h; rfl)
  | succ fuel ih =>
    intro delta result resultPos r h
    cases delta with
    | nil =>
      rw [applyDeltaLoop] at h
      cases h
      rfl
    | cons cmd rest =>
      rw [applyDeltaLoop] at h
      cases hs : applyDeltaStep base result cmd rest resultPos with
      | none => rw [hs] at h; cases h
      | some out =>
        rw [hs] at h
        rw [ih _ _ _ _ h]
        exact applyDeltaStep_result_length hs

/-- C3 amended: whenever `applyDelta` returns a result, its length equals
the result-size declared by the delta's second header varint — but a
copy/insert stream producing FEWER bytes than declared does NOT fail with
`CorruptDelta`: the untouched remainder of the pre-allocated output stays
zero (silent padding).  Producing MORE bytes than declared fails only via
the typed-array bounds `RangeError` (modelled `none`), not a `CorruptDelta`
check. -/
theorem applyDelta_length (base delta r : List Nat)
    (h : applyDelta base delta = some r) :
    (r.length : Int) = (readSizeVarint (skipVarint delta) 0 0).1 := by
  simp only [applyDelta] at h
  split at h
  · cases h
  · rename_i hneg
    have := applyDeltaLoop_length base
      (readSizeVarint (skipVarint delta) 0 0).2.length
      (readSizeVarint (skipVarint delta) 0 0).2
      (List.replicate (readSizeVarint (skipVarint delta) 0 0).1.toNat 0) 0 r h
    rw [this]
    simp only [List.length_replicate]
    omega

/-- C3 counterexample: a delta declaring result size 5 with NO instructions
at all succeeds with a zero-padded five-byte output (0 bytes produced ≠ 5
declared, yet no `CorruptDelta` failure). -/
theorem applyDelta_pads_instead_of_failing :
    applyDelta [] [0, 5] = some (List.replicate 5 0) := by decide

/-- Witness for C3's amended theorem at the concrete padded delta. -/
theorem applyDelta_length_witness :
    ((List.replicate 5 0 : List Nat).length : Int) =
      (readSizeVarint (skipVarint [0, 5]) 0 0).1 :=
  applyDelta_length [] [0, 5] (List.replicate 5 0) (by decide)

/-! ## C10: totality and fallback behaviour of `parseCommitObject` -/

theorem parseCommitLoop_no_author (lines : List String)
    (hl : ∀ line ∈ lines, matchAuthor line = none) :
    ∀ (i : Nat) (parents : List String) (name : String) (ts : Int),
      (parseCommitLoop lines i parents name ts).2.1 = name ∧
      (parseCommitLoop lines i parents name ts).2.2.1 = ts := by
  induction lines with
  | nil => intro i parents name ts; simp [parseCommitLoop]
  | cons line rest ih =>
    intro i parents name ts
    have hline := hl line (List.mem_cons_self _ _)
    have hrest : ∀ l ∈ rest, matchAuthor l = none :=
      fun l hm => hl l (List.mem_cons_of_mem _ hm)
    rw [parseCommitLoop]
    by_cases he : line == ""
    · simp [he]
    · simp only [he, Bool.false_eq_true, if_false]
      by_cases hp : strStartsWith line "parent "
      · simp only [hp, if_true]
        exact ih hrest _ _ _ _
      · simp only [hp, Bool.false_eq_true, if_false]
        by_cases ha : strStartsWith line "author "
        · simp only [ha, if_true, hline]
          exact ih hrest _ _ _ _
        · simp only [ha, Bool.false_eq_true, if_false]
          exact ih hrest _ _ _ _

/-- C10: `parseCommitObject` is total — for every decoded byte text and
every clock value it returns a parsed record, never `null` — and when no
line matches the `author <name> <email> <timestamp>` pattern the result
falls back to author name `'Unknown'` with `authoredAt` taken from the
current wall clock (`Date.now()`, the `now` parameter), so the parse
result differs across runs (different `now`) for such inputs. -/
theorem parseCommitObject_total_and_fallback :
    (∀ (text : String) (now : Int), (parseCommitObject text now).isSome = true) ∧
    (∀ (text : String) (now : Int) (r : ParsedCommit),
      (∀ line ∈ splitLines text, matchAuthor line = none) →
      parseCommitObject text now = some r →
      r.authorName = "Unknown" ∧ r.authoredAt = now) ∧
    parseCommitObject "" 0 ≠ parseCommitObject "" 1 := by
  refine ⟨?_, ?_, ?_⟩
  · intro text now
    simp [parseCommitObject]
  · intro text now r hl hr
    have h := parseCommitLoop_no_author (splitLines text) hl 0 [] "Unknown" now
    simp only [parseCommitObject, Option.some_inj] at hr
    rw [← hr]
    exact h
  · decide

/-- Witness for C10 at a concrete author-less commit body and clock 7. -/
theorem parseCommitObject_total_and_fallback_witness :
    ({ parents := [], authorName := "Unknown", authoredAt := 7,
       message := "msg" } : ParsedCommit).authorName = "Unknown" ∧
    ({ parents := [], authorName := "Unknown", authoredAt := 7,
       message := "msg" } : ParsedCommit).authoredAt = 7 :=
  parseCommitObject_total_and_fallback.2.1 "tree t\n\nmsg" 7
    { parents := [], authorName := "Unknown", authoredAt := 7,
      message := "msg" } (by decide) (by decide)

/-! ## C9: lane 0 forcing for main/master branch hints -/

/-- Two root commits; `B` carries the hint list `["dev", "main"]`, so
`main` is among its hints but not first. -/
def exC9commits : CommitMap :=
  [("A", { id := "A", parents := [], authorName := "a", authoredAt := 1,
           messageSubject := "", branchHints := none, stats := none }),
   ("B", { id := "B", parents := [], authorName := "b", authoredAt := 2,
           messageSubject := "", branchHints := some ["dev", "main"],
           stats := none })]

/-- C9 counterexample: commit `B` has a branch hint literally named `main`
among its hints, yet `assignLanes` assigns it lane 1, because the code
inspects only `branchHints[0]` (here `"dev"`). -/
theorem assignLanes_ignores_later_hints :
    ((jget exC9commits "B").map (fun c => c.branchHints)) =
      some (some ["dev", "main"]) ∧
    jget (assignLanes exC9commits ["A", "B"]) "B" = some 1 := by decide

theorem assignLaneStep_sets_zero (commits : CommitMap)
    (ch : List (String × List String)) (st : List (String × Nat) × List (Nat × String))
    (tid : String) (node : CommitNode) (h : String) (hs : List String)
    (hget : jget commits tid = some node)
    (hb : node.branchHints = some (h :: hs))
    (hmm : strToLower h = "main" ∨ strToLower h = "master") :
    jget (assignLaneStep commits ch st tid).1 tid = some 0 := by
  unfold assignLaneStep
  rw [hget]
  simp only [hb]
  have hcond : (strToLower h == "main" || strToLower h == "master") = true := by
    rcases hmm with hm | hm <;> simp [hm]
  simp only [hcond, if_true]
  exact jget_jset_self _ _ _

theorem assignLaneStep_keeps_zero (commits : CommitMap)
    (ch : List (String × List String)) (st : List (String × Nat) × List (Nat × String))
    (tid x : String) (node : CommitNode) (h : String) (hs : List String)
    (hget : jget commits tid = some node)
    (hb : node.branchHints = some (h :: hs))
    (hmm : strToLower h = "main" ∨ strToLower h = "master")
    (hst : jget st.1 tid = some 0) :
    jget (assignLaneStep commits ch st x).1 tid = some 0 := by
  by_cases hx : x = tid
  · subst hx
    exact assignLaneStep_sets_zero commits ch st x node h hs hget hb hmm
  · unfold assignLaneStep
    cases hg : jget commits x with
    | none => exact hst
    | some c =>
      simp only
      rw [jget_jset_ne _ _ _ _ (fun he => hx he.symm)]
      exact hst

theorem assignLanes_foldl_keeps_zero (commits : CommitMap)
    (ch : List (String × List String)) (tid : String) (node : CommitNode)
    (h : String) (hs : List String)
    (hget : jget commits tid = some node)
    (hb : node.branchHints = some (h :: hs))
    (hmm : strToLower h = "main" ∨ strToLower h = "master") :
    ∀ (l : List String) (st : List (String × Nat) × List (Nat × String)),
      jget st.1 tid = some 0 →
      jget (l.foldl (assignLaneStep commits ch) st).1 tid = some 0 := by
  intro l
  induction l with
  | nil => intro st hst; exact hst
  | cons x xs ih =>
    intro st hst
    exact ih _ (assignLaneStep_keeps_zero commits ch st tid x node h hs
      hget hb hmm hst)

/-- C9 amended: in lane assignment, every commit whose FIRST branch hint is
named `main` or `master` (case-insensitive) is assigned lane 0, regardless
of its parents' lanes; a `main`/`master` hint in any later position has no
effect (see the counterexample). -/
theorem assignLanes_first_hint_main (commits : CommitMap)
    (topoOrder : List String) (tid : String) (node : CommitNode)
    (h : String) (hs : List String)
    (hmem : tid ∈ topoOrder)
    (hget : jget commits tid = some node)
    (hb : node.branchHints = some (h :: hs))
    (hmm : strToLower h = "main" ∨ strToLower h = "master") :
    jget (assignLanes commits topoOrder) tid = some 0 := by
  unfold assignLanes
  have main : ∀ (l : List String) (st : List (String × Nat) × List (Nat × String)),
      tid ∈ l →
      jget (l.foldl (assignLaneStep commits (childrenOfMap commits)) st).1 tid =
        some 0 := by
    intro l
    induction l with
    | nil => intro st hm; cases hm
    | cons x xs ih =>
      intro st hm
      rw [List.foldl_cons]
      by_cases hx : x = tid
      · subst hx
        exact assignLanes_foldl_keeps_zero commits _ x node h hs hget hb hmm xs _
          (assignLaneStep_sets_zero commits _ _ x node h hs hget hb hmm)
      · rcases List.mem_cons.1 hm with he | hm'
        · exact absurd he.symm hx
        · exact ih _ hm'
  exact main topoOrder ([], []) hmem

/-- A single root commit whose first hint is `Main` (case-insensitive
match). -/
def exC9w : CommitMap :=
  [("W", { id := "W", parents := [], authorName := "w", authoredAt := 1,
           messageSubject := "", branchHints := some ["Main"],
           stats := none })]

/-- Witness for C9's amended theorem. -/
theorem assignLanes_first_hint_main_witness :
    jget (assignLanes exC9w ["W"]) "W" = some 0 :=
  assignLanes_first_hint_main exC9w ["W"] "W"
    { id := "W", parents := [], authorName := "w", authoredAt := 1,
      messageSubject := "", branchHints := some ["Main"], stats := none }
    "Main" [] (by decide) (by decide) (by decide) (by decide)

/-! ## C8: edge generation -/

/-- The per-commit edge list of `generateEdges`. -/
def edgesOfEntry (commits : CommitMap) (e : String × CommitNode) :
    List CommitEdge :=
  (e.2.parents.filter (fun p => jhas commits p)).map
    (fun p => ⟨p, e.1, e.2.parents.length > 1⟩)

theorem generateEdges_inner (commits : CommitMap) (e : String × CommitNode) :
    ∀ (parents : List String) (edges : List CommitEdge),
      (parents.foldl
        (fun edges parentId =>
          if jhas commits parentId then
            edges ++ [⟨parentId, e.1, e.2.parents.length > 1⟩]
          else edges)
        edges) =
      edges ++ (parents.filter (fun p => jhas commits p)).map
        (fun p => ⟨p, e.1, e.2.parents.length > 1⟩) := by
  intro parents
  induction parents with
  | nil => intro edges; simp
  | cons p ps ih =>
    intro edges
    rw [List.foldl_cons]
    by_cases hp : jhas commits p
    · simp only [hp, if_true, List.filter_cons, List.map_cons, ih,
        List.append_assoc, List.cons_append, List.nil_append]
    · simp only [hp, Bool.false_eq_true, if_false, List.filter_cons, ih]

theorem generateEdges_eq_flatMap (commits : CommitMap) :
    generateEdges commits = commits.flatMap (edgesOfEntry commits) := by
  unfold generateEdges
  have main : ∀ (l : CommitMap) (acc : List CommitEdge),
      (l.foldl
        (fun edges e =>
          e.2.parents.foldl
            (fun edges parentId =>
              if jhas commits parentId then
                edges ++ [⟨parentId, e.1, e.2.parents.length > 1⟩]
              else edges)
            edges)
        acc) = acc ++ l.flatMap (edgesOfEntry commits) := by
    intro l
    induction l with
    | nil => intro acc; simp
    | cons e es ih =>
      intro acc
      rw [List.foldl_cons, generateEdges_inner commits e, ih,
        List.flatMap_cons, List.append_assoc]
      rfl
  simpa using main commits []

/-- The predicate selecting edges from `p` to `c`. -/
def edgeBetween (p c : String) (e : CommitEdge) : Bool :=
  e.fromId == p && e.toId == c

theorem countP_edgesOfEntry_ne (commits : CommitMap) (p c : String)
    (e : String × CommitNode) (hne : e.1 ≠ c) :
    (edgesOfEntry commits e).countP (edgeBetween p c) = 0 := by
  rw [List.countP_eq_zero]
  intro edge hedge
  unfold edgesOfEntry at hedge
  rcases List.mem_map.1 hedge with ⟨q, _, hq⟩
  rw [← hq]
  unfold edgeBetween
  have hf : (e.1 == c) = false := by simpa using hne
  simp [hf]

theorem countP_edgesOfEntry_self (commits : CommitMap) (p : String)
    (e : String × CommitNode) :
    (edgesOfEntry commits e).countP (edgeBetween p e.1) =
      (e.2.parents.filter (fun q => jhas commits q)).count p := by
  unfold edgesOfEntry
  rw [List.countP_map, List.count]
  congr 1
  funext q
  simp [edgeBetween, Function.comp]

theorem countP_flatMap_zero (commits : CommitMap) (p c : String)
    (l : CommitMap) (hall : ∀ e ∈ l, e.1 ≠ c) :
    (l.flatMap (edgesOfEntry commits)).countP (edgeBetween p c) = 0 := by
  induction l with
  | nil => simp
  | cons e es ih =>
    rw [List.flatMap_cons, List.countP_append,
      countP_edgesOfEntry_ne commits p c e (hall e (List.mem_cons_self _ _)),
      ih (fun x hx => hall x (List.mem_cons_of_mem _ hx))]

/-- C8 amended: the edge list contains exactly one `CommitEdge` per
*occurrence* of a present parent id in a child's parents list — so a
duplicated parent entry yields duplicate edges (see the counterexample) —
and an edge's `isMerge` flag is true iff the child's parents list has more
than one entry, so all edges into the same merge commit are flagged merge
regardless of which parent they come from. -/
theorem generateEdges_spec (commits : CommitMap)
    (hnd : (commits.map Prod.fst).Nodup) :
    (∀ (p c : String) (node : CommitNode), jget commits c = some node →
      (generateEdges commits).countP (edgeBetween p c) =
        (node.parents.filter (fun q => jhas commits q)).count p) ∧
    (∀ e ∈ generateEdges commits, ∃ node,
      jget commits e.toId = some node ∧
      (e.isMerge = true ↔ node.parents.length > 1) ∧
      e.fromId ∈ node.parents ∧ jhas commits e.fromId = true) := by
  constructor
  · intro p c node hget
    rw [generateEdges_eq_flatMap]
    have main : ∀ (l : CommitMap), (l.map Prod.fst).Nodup →
        jget l c = some node →
        (l.flatMap (edgesOfEntry commits)).countP (edgeBetween p c) =
          (node.parents.filter (fun q => jhas commits q)).count p := by
      intro l
      induction l with
      | nil => intro _ hg; simp [jget_nil] at hg
      | cons e es ih =>
        intro hlnd hg
        simp only [List.map_cons, List.nodup_cons] at hlnd
        rw [jget_cons] at hg
        by_cases he : e.1 == c
        · have hec : e.1 = c := by simpa using he
          simp only [he, if_true, Option.some_inj] at hg
          rw [List.flatMap_cons, List.countP_append]
          have hz : (es.flatMap (edgesOfEntry commits)).countP
              (edgeBetween p c) = 0 := by
            apply countP_flatMap_zero
            intro x hx hxc
            exact hlnd.1 (by
              rw [← hec] at hxc
              rw [← hxc]
              exact List.mem_map.2 ⟨x, hx, rfl⟩)
          rw [hz, Nat.add_zero, ← hg, ← hec]
          exact countP_edgesOfEntry_self commits p e
        · have hec : e.1 ≠ c := by simpa using he
          simp only [he, Bool.false_eq_true, if_false] at hg
          rw [List.flatMap_cons, List.countP_append,
            countP_edgesOfEntry_ne commits p c e hec, Nat.zero_add]
          exact ih hlnd.2 hg
    exact main commits hnd hget
  · intro e he
    rw [generateEdges_eq_flatMap] at he
    rcases List.mem_flatMap.1 he with ⟨entry, hentry, hedge⟩
    unfold edgesOfEntry at hedge
    rcases List.mem_map.1 hedge with ⟨q, hq, hqe⟩
    rcases List.mem_filter.1 hq with ⟨hqp, hqhas⟩
    refine ⟨entry.2, ?_, ?_, ?_, ?_⟩
    · rw [← hqe]
      exact jget_eq_of_mem_nodup hnd hentry
    · rw [← hqe]
      simp
    · rw [← hqe]
      exact hqp
    · rw [← hqe]
      exact hqhas

/-- A root commit and a child that lists the same present parent twice. -/
def exC8 : CommitMap :=
  [("r", { id := "r", parents := [], authorName := "a", authoredAt := 1,
           messageSubject := "", branchHints := none, stats := none }),
   ("c", { id := "c", parents := ["r", "r"], authorName := "a",
           authoredAt := 2, messageSubject := "", branchHints := none,
           stats := none })]

/-- C8 counterexample: with both `r` and `c` present and `c` listing parent
`r` twice, `generateEdges` emits TWO edges for the single r→c parent-child
relationship, not exactly one. -/
theorem generateEdges_duplicate_edges :
    ((jget exC8 "c").map (fun n => n.parents)) = some ["r", "r"] ∧
    jhas exC8 "r" = true ∧
    (generateEdges exC8).countP (edgeBetween "r" "c") = 2 := by decide

/-- Witness for C8's amended theorem at the duplicate-parent input. -/
theorem generateEdges_spec_witness :
    (generateEdges exC8).countP (edgeBetween "r" "c") =
      ((({ id := "c", parents := ["r", "r"], authorName := "a",
           authoredAt := 2, messageSubject := "", branchHints := none,
           stats := none } : CommitNode).parents.filter
          (fun q => jhas exC8 q)).count "r") :=
  (generateEdges_spec exC8 (by decide)).1 "r" "c"
    { id := "c", parents := ["r", "r"], authorName := "a", authoredAt := 2,
      messageSubject := "", branchHints := none, stats := none } (by decide)

/-! ## C7: default head selection -/

/-- One root commit. -/
def exC7commits : CommitMap :=
  [("z", { id := "z", parents := [], authorName := "a", authoredAt := 1,
           messageSubject := "", branchHints := none, stats := none })]

/-- Refs inserted in non-lexicographic order: `zeta` first, `alpha` second. -/
def exC7refs : List (String × String) := [("zeta", "z"), ("alpha", "a")]

/-- C7 counterexample: with no declared default branch and no
`main`/`master` ref, the default head is the target of the FIRST ref in map
insertion order (`zeta` → `z`), not of the lexicographically-first branch
name (`alpha`, whose name compares below `zeta` character-wise and whose
target is `a`). -/
theorem buildRepoGraph_first_inserted_ref :
    ("alpha".data.headD 'z' < "zeta".data.headD 'a') ∧
    jhas exC7refs "main" = false ∧ jhas exC7refs "master" = false ∧
    jget exC7refs "alpha" = some "a" ∧
    (buildRepoGraph exC7commits exC7refs none).defaultHead = "z" ∧
    ("z" : String) ≠ "a" := by decide

/-- The head the amended C7 predicts when the declared-default, `main` and
`master` branches are all unavailable: the target of the first ref in
iteration order, else the last commit of the topological order, else `''`. -/
def firstRefTargetOr (refs : List (String × String))
    (topoOrder : List String) : String :=
  match refs with
  | r :: _ => r.2
  | [] =>
    match topoOrder.getLast? with
    | some l => l
    | none => ""

/-- C7 amended: when no repository-declared default branch applies and
neither `main` nor `master` exists among the refs, the default head is the
target of the FIRST branch in the refs map's iteration (insertion) order;
only when there are no refs at all is it the last entry of the topological
order (and the empty string when there are additionally no commits). -/
theorem buildRepoGraph_defaultHead_fallback (commits : CommitMap)
    (refs : List (String × String)) (db : Option String)
    (hdb : ∀ s, db = some s → s = "" ∨ jhas refs s = false)
    (hmain : jhas refs "main" = false)
    (hmaster : jhas refs "master" = false) :
    (buildRepoGraph commits refs db).defaultHead =
      firstRefTargetOr refs (buildTopoOrder commits) := by
  have hfb : defaultHeadFallback refs (buildTopoOrder commits) =
      firstRefTargetOr refs (buildTopoOrder commits) := by
    unfold defaultHeadFallback firstRefTargetOr
    simp [hmain, hmaster]
  cases db with
  | none => simpa [buildRepoGraph] using hfb
  | some s =>
    have hcond : ¬(s ≠ "" ∧ jhas refs s = true) := by
      rintro ⟨h1, h2⟩
      rcases hdb s rfl with h3 | h3
      · exact h1 h3
      · rw [h3] at h2
        cases h2
    simp only [buildRepoGraph]
    rw [if_neg hcond]
    exact hfb

/-- Witness for C7's amended theorem: a repository whose only branch is
`develop` resolves the default head to `develop`'s target. -/
theorem buildRepoGraph_defaultHead_fallback_witness :
    (buildRepoGraph [] [("develop", "t")] none).defaultHead = "t" := by
  have h := buildRepoGraph_defaultHead_fallback [] [("develop", "t")] none
    (fun s hs => by cases hs) (by decide) (by decide)
  simpa using h

/-! ## C2: resilience of the commit walk -/

theorem jhas_jset {α : Type} (m : List (String × α)) (k k' : String) (v : α) :
    jhas (jset m k v) k' = (k == k' || jhas m k') := by
  by_cases hk : k == k'
  · have : k = k' := by simpa using hk
    subst this
    simp only [hk, Bool.true_or]
    exact (jhas_iff_jget _ _).2 ⟨v, jget_jset_self m k v⟩
  · simp only [hk, Bool.false_or]
    have hne : k' ≠ k := fun he => by simp [he] at hk
    cases hh : jhas m k'
    · rw [← Bool.not_eq_true]
      intro hc
      rcases (jhas_iff_jget _ _).1 hc with ⟨w, hw⟩
      rw [jget_jset_ne m k k' v hne] at hw
      have := (jhas_iff_jget m k').2 ⟨w, hw⟩
      rw [hh] at this
      cases this
    · rcases (jhas_iff_jget m k').1 hh with ⟨w, hw⟩
      exact (jhas_iff_jget _ _).2 ⟨w, by rw [jget_jset_ne m k k' v hne]; exact hw⟩

/-- The `CommitNode` recorded by the walk for a parsed commit. -/
def walkNode (refs : List (String × String)) (oid : String)
    (parsed : ParsedCommit) : CommitNode :=
  { id := oid, parents := parsed.parents, authorName := parsed.authorName,
    authoredAt := parsed.authoredAt,
    messageSubject := (splitLines parsed.message).headD "",
    branchHints :=
      if ((refs.filter (fun e => e.2 == oid)).map (·.1)).length > 0 then
        some ((refs.filter (fun e => e.2 == oid)).map (·.1))
      else none,
    stats := none }

theorem walkGo_nil (store : List (String × GitObj))
    (refs : List (String × String)) (now : Int) (visited : List String)
    (commits : CommitMap) (failed : List String) :
    walkGo store refs now visited [] commits failed = (commits, failed) := by
  rw [walkGo.eq_def]

theorem walkGo_visited (store : List (String × GitObj))
    (refs : List (String × String)) (now : Int) (visited : List String)
    (oid : String) (rest : List String) (commits : CommitMap)
    (failed : List String) (hv : oid ∈ visited) :
    walkGo store refs now visited (oid :: rest) commits failed =
      walkGo store refs now visited rest commits failed := by
  rw [walkGo.eq_def]
  simp [hv]

theorem walkGo_thrown (store : List (String × GitObj))
    (refs : List (String × String)) (now : Int) (visited : List String)
    (oid : String) (rest : List String) (commits : CommitMap)
    (failed : List String) (hv : oid ∉ visited)
    (hread : readStore store oid = .thrown) :
    walkGo store refs now visited (oid :: rest) commits failed =
      walkGo store refs now (oid :: visited) rest commits (failed ++ [oid]) := by
  rw [walkGo.eq_def]
  simp only [dif_neg hv]
  split <;> rename_i heq <;> rw [hread] at heq <;> try cases heq
  all_goals rfl

theorem walkGo_missing (store : List (String × GitObj))
    (refs : List (String × String)) (now : Int) (visited : List String)
    (oid : String) (rest : List String) (commits : CommitMap)
    (failed : List String) (hv : oid ∉ visited)
    (hread : readStore store oid = .missing) :
    walkGo store refs now visited (oid :: rest) commits failed =
      walkGo store refs now (oid :: visited) rest commits (failed ++ [oid]) := by
  rw [walkGo.eq_def]
  simp only [dif_neg hv]
  split <;> rename_i heq <;> rw [hread] at heq <;> try cases heq
  all_goals rfl

theorem walkGo_noncommit (store : List (String × GitObj))
    (refs : List (String × String)) (now : Int) (visited : List String)
    (oid : String) (rest : List String) (commits : CommitMap)
    (failed : List String) (hv : oid ∉ visited) (t d : String)
    (hread : readStore store oid = .obj t d) (ht : t ≠ "commit") :
    walkGo store refs now visited (oid :: rest) commits failed =
      walkGo store refs now (oid :: visited) rest commits failed := by
  rw [walkGo.eq_def]
  simp only [dif_neg hv]
  split <;> rename_i heq <;> rw [hread] at heq <;> try cases heq
  all_goals rw [dif_neg ht]

theorem walkGo_commit (store : List (String × GitObj))
    (refs : List (String × String)) (now : Int) (visited : List String)
    (oid : String) (rest : List String) (commits : CommitMap)
    (failed : List String) (hv : oid ∉ visited) (d : String)
    (parsed : ParsedCommit)
    (hread : readStore store oid = .obj "commit" d)
    (hparse : parseCommitObject d now = some parsed) :
    walkGo store refs now visited (oid :: rest) commits failed =
      walkGo store refs now (oid :: visited)
        ((parsed.parents.filter
          (fun p => !((oid :: visited).contains p))).reverse ++ rest)
        (jset commits oid (walkNode refs oid parsed)) failed := by
  rw [walkGo.eq_def]
  simp only [dif_neg hv]
  split <;> rename_i heq <;> rw [hread] at heq <;> try cases heq
  all_goals rw [dif_pos rfl]
  all_goals split <;> rename_i heq2 <;> rw [hparse] at heq2 <;> try cases heq2
  all_goals rfl

theorem walkGo_excl (store : List (String × GitObj))
    (refs : List (String × String)) (now : Int) (oid : String)
    (hread : readStore store oid = .missing ∨ readStore store oid = .thrown) :
    ∀ (visited toVisit : List String) (commits : CommitMap)
      (failed : List String),
      jhas commits oid = false →
      jhas (walkGo store refs now visited toVisit commits failed).1 oid = false := by
  intro visited toVisit commits failed
  induction visited, toVisit, commits, failed using walkGo.induct store refs now
  case case1 visited commits failed =>
    intro h
    rw [walkGo_nil]
    exact h
  case case2 visited commits failed y ys hv ih =>
    intro h
    rw [walkGo_visited _ _ _ _ _ _ _ _ hv]
    exact ih h
  case case3 visited commits failed y ys hv hry ih =>
    intro h
    rw [walkGo_thrown _ _ _ _ _ _ _ _ hv hry]
    exact ih h
  case case4 visited commits failed y ys hv hry ih =>
    intro h
    rw [walkGo_missing _ _ _ _ _ _ _ _ hv hry]
    exact ih h
  case case5 visited commits failed y ys hv d hparse hry ih =>
    simp [parseCommitObject] at hparse
  case case6 visited commits failed y ys hv d parsed hparse bh nd tv hry ih =>
    intro h
    rw [walkGo_commit _ _ _ _ _ _ _ _ hv d parsed hry hparse]
    apply ih
    rw [jhas_jset]
    have hyne : (y == oid) = false := by
      simp only [beq_eq_false_iff_ne, ne_eq]
      intro he
      subst he
      rcases hread with hr | hr <;> rw [hry] at hr <;> cases hr
    rw [hyne, Bool.false_or]
    exact h
  case case7 visited commits failed y ys hv t d hry ht ih =>
    intro h
    rw [walkGo_noncommit _ _ _ _ _ _ _ _ hv t d hry ht]
    exact ih h

theorem walkGo_prog (store : List (String × GitObj))
    (refs : List (String × String)) (now : Int) (oid d : String)
    (hread : readStore store oid = .obj "commit" d) :
    ∀ (visited toVisit : List String) (commits : CommitMap)
      (failed : List String),
      (∀ o d2, readStore store o = .obj "commit" d2 → o ∈ visited →
        jhas commits o = true) →
      (oid ∈ toVisit ∨ jhas commits oid = true) →
      jhas (walkGo store refs now visited toVisit commits failed).1 oid = true := by
  intro visited toVisit commits failed
  induction visited, toVisit, commits, failed using walkGo.induct store refs now
  case case1 visited commits failed =>
    intro hvis hin
    rw [walkGo_nil]
    rcases hin with h | h
    · cases h
    · exact h
  case case2 visited commits failed y ys hv ih =>
    intro hvis hin
    rw [walkGo_visited _ _ _ _ _ _ _ _ hv]
    apply ih hvis
    rcases hin with h | h
    · rcases List.mem_cons.1 h with he | hm
      · subst he
        exact Or.inr (hvis oid d hread hv)
      · exact Or.inl hm
    · exact Or.inr h
  case case3 visited commits failed y ys hv hry ih =>
    intro hvis hin
    rw [walkGo_thrown _ _ _ _ _ _ _ _ hv hry]
    have hyne : oid ≠ y := by
      intro he
      subst he
      rw [hread] at hry
      cases hry
    apply ih
    · intro o d2 ho hmem
      rcases List.mem_cons.1 hmem with he | hm
      · subst he
        rw [hry] at ho
        cases ho
      · exact hvis o d2 ho hm
    · rcases hin with h | h
      · rcases List.mem_cons.1 h with he | hm
        · exact absurd he hyne
        · exact Or.inl hm
      · exact Or.inr h
  case case4 visited commits failed y ys hv hry ih =>
    intro hvis hin
    rw [walkGo_missing _ _ _ _ _ _ _ _ hv hry]
    have hyne : oid ≠ y := by
      intro he
      subst he
      rw [hread] at hry
      cases hry
    apply ih
    · intro o d2 ho hmem
      rcases List.mem_cons.1 hmem with he | hm
      · subst he
        rw [hry] at ho
        cases ho
      · exact hvis o d2 ho hm
    · rcases hin with h | h
      · rcases List.mem_cons.1 h with he | hm
        · exact absurd he hyne
        · exact Or.inl hm
      · exact Or.inr h
  case case5 visited commits failed y ys hv d2 hparse hry ih =>
    simp [parseCommitObject] at hparse
  case case6 visited commits failed y ys hv d2 parsed hparse bh nd tv hry ih =>
    intro hvis hin
    rw [walkGo_commit _ _ _ _ _ _ _ _ hv d2 parsed hry hparse]
    apply ih
    · intro o d3 ho hmem
      rw [jhas_jset]
      rcases List.mem_cons.1 hmem with he | hm
      · subst he
        simp
      · rw [hvis o d3 ho hm, Bool.or_true]
    · rcases hin with h | h
      · rcases List.mem_cons.1 h with he | hm
        · subst he
          refine Or.inr ?_
          rw [jhas_jset]
          simp
        · exact Or.inl (List.mem_append.2 (Or.inr hm))
      · refine Or.inr ?_
        rw [jhas_jset, h, Bool.or_true]
  case case7 visited commits failed y ys hv t d2 hry ht ih =>
    intro hvis hin
    rw [walkGo_noncommit _ _ _ _ _ _ _ _ hv t d2 hry ht]
    have hyne : oid ≠ y := by
      intro he
      subst he
      rw [hread] at hry
      injection hry with h1 h2
      exact ht h1.symm
    apply ih
    · intro o d3 ho hmem
      rcases List.mem_cons.1 hmem with he | hm
      · subst he
        rw [hry] at ho
        injection ho with h1 h2
        exact absurd h1 ht
      · exact hvis o d3 ho hm
    · rcases hin with h | h
      · rcases List.mem_cons.1 h with he | hm
        · exact absurd he hyne
        · exact Or.inl hm
      · exact Or.inr h

/-- C2: during the commit walk, a decode failure for an individual object
(`readGitObject` returning `null` or throwing) never aborts the walk:
the failed object is excluded from the commit set, every ref target that
does decode as a commit object is still processed and recorded, and
the import as a whole fails (with the "no commits could be read" error)
if and only if the resulting commit set is empty. -/
theorem walk_resilience (store : List (String × GitObj))
    (refs : List (String × String)) (now : Int)
    (defaultBranch : Option String) :
    (∀ oid : String,
      readStore store oid = .missing ∨ readStore store oid = .thrown →
      jhas (runWalk store refs now).1 oid = false) ∧
    (∀ r ∈ refs, (∃ d, readStore store r.2 = .obj "commit" d) →
      jhas (runWalk store refs now).1 r.2 = true) ∧
    (walkImport store refs now defaultBranch =
        Except.error "No commits could be read from repository. Make sure your ZIP includes .git/objects." ↔
      (runWalk store refs now).1 = []) := by
  refine ⟨?_, ?_, ?_⟩
  · intro oid h
    exact walkGo_excl store refs now oid h [] _ [] [] rfl
  · rintro r hr ⟨d, hd⟩
    apply walkGo_prog store refs now r.2 d hd [] _ [] []
    · intro o d2 _ ho
      cases ho
    · refine Or.inl ?_
      simp only [List.mem_reverse, List.mem_map]
      exact ⟨r, hr, rfl⟩
  · unfold walkImport
    by_cases h : (runWalk store refs now).1.isEmpty
    · simp only [h, if_true]
      constructor
      · intro _
        exact List.isEmpty_iff.1 h
      · intro _
        trivial
    · simp only [h, Bool.false_eq_true, if_false]
      constructor
      · intro he
        cases he
      · intro he
        exact absurd (by rw [he]; rfl) h

/-- A store for the C2 witness: the ref tip is a commit with two parents,
one readable commit and one whose read throws. -/
def exC2store : List (String × GitObj) :=
  [("tip", .obj "commit" "parent bad\nparent good\n\nmsg"),
   ("good", .obj "commit" "tree x\n\nroot"),
   ("bad", .thrown)]

/-- Refs for the C2 witness. -/
def exC2refs : List (String × String) := [("main", "tip")]

/-- Witness for C2: in the example store the failed object `bad` is absent
from the walked commit set, the ref target `tip` is present, and the import
does not fail. -/
theorem walk_resilience_witness :
    jhas (runWalk exC2store exC2refs 0).1 "bad" = false ∧
    jhas (runWalk exC2store exC2refs 0).1 "tip" = true ∧
    walkImport exC2store exC2refs 0 none ≠
      Except.error "No commits could be read from repository. Make sure your ZIP includes .git/objects." := by
  obtain ⟨ha, hb, hc⟩ := walk_resilience exC2store exC2refs 0 none
  refine ⟨ha "bad" (Or.inr (by decide)), ?_, ?_⟩
  · exact hb ("main", "tip") (by decide)
      ⟨"parent bad\nparent good\n\nmsg", by decide⟩
  · intro he
    have htip := hb ("main", "tip") (by decide)
      ⟨"parent bad\nparent good\n\nmsg", by decide⟩
    rw [hc.1 he] at htip
    exact absurd htip (by decide)

/-! ## C1: correctness of `buildTopoOrder` (Kahn's algorithm) -/

theorem jhas_eq_false_iff {α : Type} (m : List (String × α)) (k : String) :
    jhas m k = false ↔ ∀ e ∈ m, (e.1 == k) = false := by
  unfold jhas
  cases hf : m.find? (fun e => e.1 == k) with
  | none =>
    simp only [Option.isSome_none, true_iff]
    intro e he
    have := List.find?_eq_none.1 hf e he
    simpa using this
  | some e =>
    constructor
    · intro h
      simp at h
    · intro h
      exfalso
      have hm := List.mem_of_find?_eq_some hf
      have hk := List.find?_some hf
      rw [h e hm] at hk
      cases hk

theorem jhas_iff_mem_keys {α : Type} (m : List (String × α)) (k : String) :
    jhas m k = true ↔ k ∈ m.map (·.1) := by
  constructor
  · intro h
    rcases (jhas_iff_jget m k).1 h with ⟨v, hv⟩
    rcases jget_mem hv with hm
    exact List.mem_map.2 ⟨(k, v), hm, rfl⟩
  · intro h
    rcases List.mem_map.1 h with ⟨e, he, hk⟩
    cases hb : jhas m k
    · have := (jhas_eq_false_iff m k).1 hb e he
      rw [hk] at this
      simp at this
    · rfl

theorem jset_map_fst_of_jhas {α : Type} (m : List (String × α)) (k : String)
    (v : α) (h : jhas m k = true) :
    (jset m k v).map (·.1) = m.map (·.1) := by
  rw [jset_of_jhas v h, List.map_map]
  apply List.map_congr_left
  intro e _
  by_cases he : e.1 == k
  · have : e.1 = k := by simpa using he
    simp [Function.comp, he, this]
  · simp [Function.comp, he]

theorem jset_append_fresh {α : Type} (m : List (String × α)) (k : String)
    (v w : α) (h : jhas m k = false) :
    jset (m ++ [(k, v)]) k w = m ++ [(k, w)] := by
  have hh : jhas (m ++ [(k, v)]) k = true := by
    rw [jhas_iff_mem_keys]
    simp
  rw [jset_of_jhas w hh, List.map_append]
  congr 1
  · have hm : List.map (fun e => if (e.1 == k) = true then (k, w) else e) m =
        List.map id m := by
      apply List.map_congr_left
      intro e he
      have := (jhas_eq_false_iff m k).1 h e he
      simp [this]
    rw [hm, List.map_id]
  · simp

theorem contains_iff_mem (R : List String) (p : String) :
    R.contains p = true ↔ p ∈ R := List.elem_iff

/-- Keys of the commit map. -/
def keysOf (K : CommitMap) : List String := K.map (·.1)

/-- Parents array of a commit id (empty when the id is absent). -/
def parentsOf (K : CommitMap) (c : String) : List String :=
  ((jget K c).map CommitNode.parents).getD []

/-- Parent occurrences of `c` that are present in the map (these are the
occurrences `buildTopoOrder` counts into `inDegree` and `children`). -/
def presParents (K : CommitMap) (c : String) : List String :=
  (parentsOf K c).filter (fun p => jhas K p)

/-- The in-degree still outstanding once every parent in `R` has been
output: present-parent occurrences of `c` whose parent is not in `R`. -/
def remDeg (K : CommitMap) (R : List String) (c : String) : Nat :=
  ((presParents K c).filter (fun p => !R.contains p)).length

/-- The present-parent relation of the commit map (`p` is a parent of `c`
and `p` is itself in the map); the DAG hypothesis of C1 is its
well-foundedness. -/
def parentRel (K : CommitMap) (p c : String) : Prop := p ∈ presParents K c

/-- The child-occurrence list accumulated for parent `p` by phase one of
`buildTopoOrder` after processing the entries of `P`. -/
def chl (K P : CommitMap) (p : String) : List String :=
  if jhas K p then
    P.flatMap (fun e => (e.2.parents.filter (fun q => q == p)).map (fun _ => e.1))
  else []

theorem remDeg_nil (K : CommitMap) (c : String) :
    remDeg K [] c = (presParents K c).length := by
  unfold remDeg
  congr 1
  apply List.filter_eq_self.2
  intro p _
  rfl

theorem remDeg_eq_zero_of_sub (K : CommitMap) (R : List String) (c : String)
    (h : ∀ p ∈ presParents K c, p ∈ R) : remDeg K R c = 0 := by
  unfold remDeg
  rw [List.length_eq_zero]
  apply List.filter_eq_nil_iff.2
  intro p hp
  have hc : R.contains p = true := (contains_iff_mem R p).2 (h p hp)
  rw [hc]
  simp

theorem remDeg_zero_parents (K : CommitMap) (R : List String) (c : String)
    (h : remDeg K R c = 0) : ∀ p ∈ presParents K c, p ∈ R := by
  intro p hp
  unfold remDeg at h
  rw [List.length_eq_zero] at h
  by_contra hpr
  have hcf : R.contains p = false := by
    cases hcc : R.contains p
    · rfl
    · exact absurd ((contains_iff_mem R p).1 hcc) hpr
  have hmem : p ∈ (presParents K c).filter (fun p => !R.contains p) :=
    List.mem_filter.2 ⟨hp, by rw [hcf]; rfl⟩
  rw [h] at hmem
  cases hmem

theorem contains_append_single (R : List String) (x p : String) :
    (R ++ [x]).contains p = (R.contains p || (p == x)) := by
  rw [Bool.eq_iff_iff, Bool.or_eq_true, contains_iff_mem, contains_iff_mem,
    List.mem_append, List.mem_singleton, beq_iff_eq]

theorem countP_not_add (l : List String) (p : String → Bool) :
    l.countP (fun x => !(p x)) + l.countP p = l.length := by
  induction l with
  | nil => rfl
  | cons x xs ih => cases h : p x <;> simp [List.countP_cons, h] <;> omega

theorem length_filter_not_beq (l : List String) (a : String) :
    (l.filter (fun x => !(x == a))).length = l.length - l.count a := by
  rw [← List.countP_eq_length_filter]
  have h := countP_not_add l (fun x => x == a)
  have hc : l.count a = l.countP (fun x => x == a) := rfl
  omega

/-- Splitting off one new output id from the outstanding in-degree: the
present-parent occurrences of `c` still blocked drop by exactly the number
of times `x` occurs among them. -/
theorem remDeg_append (K : CommitMap) (R : List String) (x c : String)
    (hxR : x ∉ R) :
    remDeg K (R ++ [x]) c = remDeg K R c - (presParents K c).count x := by
  unfold remDeg
  have hpred : ∀ p ∈ presParents K c,
      (!(R ++ [x]).contains p) = ((!(p == x)) && (!R.contains p)) := by
    intro p _
    rw [contains_append_single]
    cases h1 : R.contains p <;> cases h2 : p == x <;> rfl
  rw [List.filter_congr hpred, ← List.filter_filter]
  rw [length_filter_not_beq]
  congr 1
  rw [List.count_filter]
  have : R.contains x = false := by
    cases hc : R.contains x
    · rfl
    · exact absurd ((contains_iff_mem R x).1 hc) hxR
  rw [this]
  rfl

theorem count_le_remDeg (K : CommitMap) (R : List String) (x c : String)
    (hxR : x ∉ R) :
    (presParents K c).count x ≤ remDeg K R c := by
  unfold remDeg
  have hx : ((presParents K c).filter (fun p => !R.contains p)).count x =
      (presParents K c).count x := by
    rw [List.count_filter]
    have : R.contains x = false := by
      cases hc : R.contains x
      · rfl
      · exact absurd ((contains_iff_mem R x).1 hc) hxR
    rw [this]
    rfl
  rw [← hx]
  exact List.count_le_length _ _

theorem count_pres (K : CommitMap) (c x : String) (hx : jhas K x = true) :
    (presParents K c).count x = (parentsOf K c).count x := by
  unfold presParents
  rw [List.count_filter hx]

/-- A commit accessible under the present-parent relation is not its own
parent. -/
theorem acc_not_self {K : CommitMap} {c : String}
    (h : Acc (parentRel K) c) : ¬ parentRel K c c := by
  induction h with
  | intro x h ih =>
    intro hr
    exact ih x hr hr

theorem count_flatMap (f : (String × CommitNode) → List String)
    (L : CommitMap) (c : String) :
    (L.flatMap f).count c = (L.map (fun e => (f e).count c)).sum := by
  induction L with
  | nil => rfl
  | cons e L ih => simp [List.flatMap_cons, List.count_append, ih]

theorem count_map_const {α : Type} (l : List α) (a c : String) :
    (l.map (fun _ => a)).count c = if a = c then l.length else 0 := by
  induction l with
  | nil => simp
  | cons y l ih =>
    by_cases h : a = c
    · simp [List.count_cons, ih, h]
    · simp [List.count_cons, ih, h, List.count_replicate, Ne.symm h]

theorem sum_keyed (c : String) (g : CommitNode → Nat) :
    ∀ (K : CommitMap), (keysOf K).Nodup →
    (K.map (fun e => if e.1 = c then g e.2 else 0)).sum =
      ((jget K c).map g).getD 0 := by
  intro K
  induction K with
  | nil => intro _; rfl
  | cons e K ih =>
    intro hnd
    simp only [keysOf, List.map_cons, List.nodup_cons] at hnd
    by_cases he : e.1 = c
    · rw [List.map_cons, List.sum_cons, jget_cons, if_pos he,
        if_pos (by simpa using he)]
      have hz : (K.map (fun e2 => if e2.1 = c then g e2.2 else 0)).sum = 0 := by
        apply List.sum_eq_zero
        intro n hn
        rcases List.mem_map.1 hn with ⟨e2, he2, hne⟩
        by_cases h2 : e2.1 = c
        · exact absurd (List.mem_map.2 ⟨e2, he2, by rw [h2, he]⟩) hnd.1
        · rw [if_neg h2] at hne
          exact hne.symm
      rw [hz]
      simp
    · rw [List.map_cons, List.sum_cons, if_neg he, jget_cons,
        if_neg (by simpa using he), Nat.zero_add]
      exact ih hnd.2

/-- Occurrences of `c` in the child list of `x`: exactly the occurrences of
`x` among `c`'s parents (for maps with unique keys and `x` present). -/
theorem count_chl (K : CommitMap) (hnd : (keysOf K).Nodup) (x : String)
    (hx : jhas K x = true) (c : String) :
    (chl K K x).count c = (parentsOf K c).count x := by
  unfold chl
  rw [if_pos hx, count_flatMap]
  have hmapeq : K.map
      (fun e => ((e.2.parents.filter (fun q => q == x)).map (fun _ => e.1)).count c) =
      K.map (fun e => if e.1 = c then e.2.parents.count x else 0) := by
    apply List.map_congr_left
    intro e _
    rw [count_map_const]
    congr 1
    rw [show List.count x e.2.parents =
        List.countP (fun q => q == x) e.2.parents from rfl,
      List.countP_eq_length_filter]
  rw [hmapeq, sum_keyed c (fun n => n.parents.count x) K hnd]
  unfold parentsOf
  cases hg : jget K c <;> simp [hg]

theorem jget_eq_none_of_jhas_false {α : Type} {m : List (String × α)}
    {k : String} (h : jhas m k = false) : jget m k = none := by
  cases hg : jget m k with
  | none => rfl
  | some v =>
    have := (jhas_iff_jget m k).2 ⟨v, hg⟩
    rw [h] at this
    cases this

/-- The inner `for (const parentId of commit.parents)` loop of one phase-one
iteration of `buildTopoOrder` (same lambda as in `topoDegreeStep`). -/
def degInner (K : CommitMap) (id : String) (ps : List String)
    (st : List (String × Int) × List (String × List String)) :
    List (String × Int) × List (String × List String) :=
  ps.foldl
    (fun st p =>
      if jhas K p then
        (jset st.1 id (((jget st.1 id).getD 0) + 1),
         jset st.2 p (((jget st.2 p).getD []) ++ [id]))
      else st) st

theorem topoDegreeStep_eq_degInner (K : CommitMap)
    (st : List (String × Int) × List (String × List String))
    (e : String × CommitNode) :
    topoDegreeStep K st e =
      degInner K e.1 e.2.parents
        (if jhas st.1 e.1 then st.1 else jset st.1 e.1 0,
         if jhas st.2 e.1 then st.2 else jset st.2 e.1 []) := rfl

/-- Relational characterisation of `degInner`: the id's own in-degree grows
by the number of present parents, nothing else in the degree map changes,
and each parent's child list gains one occurrence of the id per matching
parent occurrence. -/
theorem degInner_spec (K : CommitMap) (id : String) :
    ∀ (ps : List String) (I : List (String × Int))
      (C : List (String × List String)) (d0 : Int),
      jget I id = some d0 →
      ((degInner K id ps (I, C)).1.map (·.1) = I.map (·.1)) ∧
      (jget (degInner K id ps (I, C)).1 id =
        some (d0 + ((ps.filter (fun p => jhas K p)).length : Int))) ∧
      (∀ k, k ≠ id → jget (degInner K id ps (I, C)).1 k = jget I k) ∧
      (∀ q, (jget (degInner K id ps (I, C)).2 q).getD [] =
        (jget C q).getD [] ++
          (ps.filter (fun p => p == q && jhas K p)).map (fun _ => id)) := by
  intro ps
  induction ps with
  | nil =>
    intro I C d0 hd0
    refine ⟨rfl, ?_, fun k _ => rfl, fun q => by simp [degInner]⟩
    simpa [degInner] using hd0
  | cons p ps ih =>
    intro I C d0 hd0
    by_cases hp : jhas K p = true
    · have hstep : degInner K id (p :: ps) (I, C) =
          degInner K id ps
            (jset I id (d0 + 1), jset C p ((jget C p).getD [] ++ [id])) := by
        simp [degInner, hp, hd0]
      rw [hstep]
      have hI' : jget (jset I id (d0 + 1)) id = some (d0 + 1) :=
        jget_jset_self I id (d0 + 1)
      obtain ⟨h1, h2, h3, h4⟩ := ih (jset I id (d0 + 1))
        (jset C p ((jget C p).getD [] ++ [id])) (d0 + 1) hI'
      refine ⟨?_, ?_, ?_, ?_⟩
      · rw [h1]
        exact jset_map_fst_of_jhas I id (d0 + 1)
          ((jhas_iff_jget I id).2 ⟨d0, hd0⟩)
      · rw [h2]
        congr 1
        rw [List.filter_cons_of_pos (by simpa using hp)]
        simp only [List.length_cons]
        push_cast
        ring
      · intro k hk
        rw [h3 k hk, jget_jset_ne I id k (d0 + 1) hk]
      · intro q
        rw [h4 q]
        by_cases hq : p = q
        · subst hq
          rw [jget_jset_self, List.filter_cons_of_pos (by simp [hp])]
          simp
        · have hb : (p == q) = false := by simpa using hq
          rw [jget_jset_ne C p q _ (Ne.symm hq),
            List.filter_cons_of_neg (by simp [hb])]
    · have hpf : jhas K p = false := by
        cases hb : jhas K p
        · rfl
        · exact absurd hb hp
      have hstep : degInner K id (p :: ps) (I, C) =
          degInner K id ps (I, C) := by
        simp [degInner, hpf]
      rw [hstep]
      obtain ⟨h1, h2, h3, h4⟩ := ih I C d0 hd0
      refine ⟨h1, ?_, h3, ?_⟩
      · rw [h2]
        congr 2
        rw [List.filter_cons_of_neg (by simp [hpf])]
      · intro q
        rw [h4 q, List.filter_cons_of_neg (by simp [hpf])]

theorem chl_append (K : CommitMap) (P : CommitMap) (e : String × CommitNode)
    (q : String) :
    chl K (P ++ [e]) q =
      chl K P q ++
        (e.2.parents.filter (fun p => p == q && jhas K p)).map (fun _ => e.1) := by
  unfold chl
  have hfe : e.2.parents.filter (fun p => p == q && jhas K p) =
      if jhas K q then e.2.parents.filter (fun p => p == q) else [] := by
    by_cases hq : jhas K q = true
    · rw [if_pos hq]
      apply List.filter_congr
      intro p _
      by_cases hpq : p = q
      · subst hpq
        simp [hq]
      · have : (p == q) = false := by simpa using hpq
        simp [this]
    · have hqf : jhas K q = false := by
        cases hb : jhas K q
        · rfl
        · exact absurd hb hq
      rw [if_neg (by simp [hqf])]
      apply List.filter_eq_nil_iff.2
      intro p _
      by_cases hpq : p = q
      · subst hpq
        simp [hqf]
      · have : (p == q) = false := by simpa using hpq
        simp [this]
  rw [hfe]
  by_cases hq : jhas K q = true
  · rw [if_pos hq, if_pos hq, if_pos hq, List.flatMap_append]
    simp
  · have hqf : jhas K q = false := by
      cases hb : jhas K q
      · rfl
      · exact absurd hb hq
    rw [if_neg (by simp [hqf]), if_neg (by simp [hqf]), if_neg (by simp [hqf])]
    rfl

/-- Invariant of the two phase-one `for` loops of `buildTopoOrder` after
processing the entries of a prefix `P` of the commit map. -/
def phase1Inv (K P : CommitMap)
    (st : List (String × Int) × List (String × List String)) : Prop :=
  (st.1.map (·.1) = keysOf P) ∧
  (∀ c ∈ keysOf P, jget st.1 c = some ((presParents K c).length : Int)) ∧
  (∀ q, (jget st.2 q).getD [] = chl K P q)

theorem phase1_step (K : CommitMap) (hnd : (keysOf K).Nodup)
    (P : CommitMap) (e : String × CommitNode) (S : CommitMap)
    (hK : K = P ++ e :: S)
    (st : List (String × Int) × List (String × List String))
    (hinv : phase1Inv K P st) :
    phase1Inv K (P ++ [e]) (topoDegreeStep K st e) := by
  obtain ⟨h1, h2, h3⟩ := hinv
  have hmemK : e ∈ K := by
    rw [hK]
    exact List.mem_append.2 (Or.inr (List.mem_cons_self _ _))
  have hkeys : keysOf K = keysOf P ++ e.1 :: keysOf S := by
    rw [hK]
    simp [keysOf]
  have hidP : e.1 ∉ keysOf P := by
    rw [hkeys] at hnd
    rcases List.nodup_append.1 hnd with ⟨_, _, hdisj⟩
    intro hmem
    exact hdisj hmem (List.mem_cons_self _ _)
  have hjhas1 : jhas st.1 e.1 = false := by
    cases hb : jhas st.1 e.1
    · rfl
    · have := (jhas_iff_mem_keys st.1 e.1).1 hb
      rw [h1] at this
      exact absurd this hidP
  have hgetK : jget K e.1 = some e.2 := jget_eq_of_mem_nodup hnd hmemK
  rw [topoDegreeStep_eq_degInner, if_neg (by simp [hjhas1])]
  have hinit1 : jset st.1 e.1 0 = st.1 ++ [(e.1, 0)] :=
    jset_of_not_jhas 0 hjhas1
  have hget0 : jget (jset st.1 e.1 0) e.1 = some 0 := jget_jset_self _ _ _
  set C0 := if jhas st.2 e.1 then st.2 else jset st.2 e.1 [] with hC0
  have hC0get : ∀ q, (jget C0 q).getD [] = (jget st.2 q).getD [] := by
    intro q
    rw [hC0]
    by_cases hb : jhas st.2 e.1 = true
    · rw [if_pos hb]
    · have hbf : jhas st.2 e.1 = false := by
        cases hc : jhas st.2 e.1
        · rfl
        · exact absurd hc hb
      rw [if_neg (by simp [hbf])]
      by_cases hq : q = e.1
      · subst hq
        rw [jget_jset_self, jget_eq_none_of_jhas_false hbf]
        rfl
      · rw [jget_jset_ne _ _ _ _ hq]
  obtain ⟨g1, g2, g3, g4⟩ := degInner_spec K e.1 e.2.parents
    (jset st.1 e.1 0) C0 0 hget0
  refine ⟨?_, ?_, ?_⟩
  · rw [g1, hinit1, List.map_append, h1]
    simp [keysOf]
  · intro c hc
    rw [keysOf, List.map_append] at hc
    rcases List.mem_append.1 hc with hcP | hce
    · have hcne : c ≠ e.1 := fun hce => hidP (hce ▸ hcP)
      rw [g3 c hcne, jget_jset_ne _ _ _ _ hcne]
      exact h2 c hcP
    · have hce1 : c = e.1 := by simpa [keysOf] using hce
      rw [hce1, g2]
      congr 1
      have hpar : parentsOf K e.1 = e.2.parents := by
        unfold parentsOf
        rw [hgetK]
        rfl
      unfold presParents
      rw [hpar]
      simp
  · intro q
    rw [g4 q, hC0get q, h3 q, chl_append]

theorem phase1_fold (K : CommitMap) (hnd : (keysOf K).Nodup) :
    ∀ (S P : CommitMap)
      (st : List (String × Int) × List (String × List String)),
      K = P ++ S → phase1Inv K P st →
      phase1Inv K (P ++ S) (S.foldl (topoDegreeStep K) st) := by
  intro S
  induction S with
  | nil =>
    intro P st hK hinv
    simpa using hinv
  | cons e S ih =>
    intro P st hK hinv
    have hstep := phase1_step K hnd P e S hK st hinv
    have hK' : K = (P ++ [e]) ++ S := by
      rw [hK, List.append_assoc]
      rfl
    have := ih (P ++ [e]) (topoDegreeStep K st e) hK' hstep
    rw [List.append_assoc] at this
    simpa using this

/-- Characterisation of both phase-one maps of `buildTopoOrder`. -/
theorem topoDegrees_spec (K : CommitMap) (hnd : (keysOf K).Nodup) :
    ((topoDegrees K).1.map (·.1) = keysOf K) ∧
    (∀ c ∈ keysOf K, jget (topoDegrees K).1 c =
      some ((presParents K c).length : Int)) ∧
    (∀ q, (jget (topoDegrees K).2 q).getD [] = chl K K q) := by
  have hbase : phase1Inv K [] ([], []) := by
    refine ⟨rfl, ?_, ?_⟩
    · intro c hc
      cases hc
    · intro q
      unfold chl
      cases hb : jhas K q <;> simp [hb, jget_nil]
  have := phase1_fold K hnd K [] ([], []) rfl hbase
  simpa [topoDegrees] using this

/-- Invariant of the inner `for (const childId of commitChildren)` loop of
`buildTopoOrder`'s while loop, after processing the occurrence prefix
`pre` of the child list of the commit being output (`R` is the result
before the current commit `id` is appended, `rest` the remaining queue). -/
def childFoldInv (K : CommitMap) (R rest : List String) (id : String)
    (pre : List String) (st : List (String × Int) × List String) : Prop :=
  (st.1.map (·.1) = keysOf K) ∧
  (∀ c ∈ keysOf K, jget st.1 c =
    some ((remDeg K R c : Int) - pre.count c)) ∧
  (∀ c, c ∈ st.2 ↔ (c ∈ rest ∨
    (c ∈ keysOf K ∧ remDeg K R c = pre.count c ∧ 0 < pre.count c))) ∧
  st.2.Nodup ∧
  (∀ c ∈ st.2, c ∉ R ∧ c ≠ id)

theorem childFold_go (K : CommitMap) (R rest : List String) (id : String)
    (occ : List String)
    (hoccle : ∀ c, occ.count c ≤ remDeg K R c)
    (hocckeys : ∀ c ∈ occ, c ∈ keysOf K)
    (hidocc : id ∉ occ)
    (hrestz : ∀ c ∈ rest, remDeg K R c = 0) :
    ∀ (suf pre : List String) (st : List (String × Int) × List String),
      occ = pre ++ suf →
      (∀ c ∈ R, remDeg K R c = 0) →
      childFoldInv K R rest id pre st →
      childFoldInv K R rest id (pre ++ suf)
        (suf.foldl (topoChildStep K) st) := by
  intro suf
  induction suf with
  | nil =>
    intro pre st hocc hRz hinv
    simpa using hinv
  | cons o suf ih =>
    intro pre st hocc hRz hinv
    obtain ⟨h1, h2, h3, h4, h5⟩ := hinv
    have hoocc : o ∈ occ := by
      rw [hocc]
      exact List.mem_append.2 (Or.inr (List.mem_cons_self _ _))
    have hokeys : o ∈ keysOf K := hocckeys o hoocc
    have hcnt : pre.count o + 1 ≤ occ.count o := by
      rw [hocc]
      simp [List.count_append, List.count_cons]
    have hole : pre.count o + 1 ≤ remDeg K R o :=
      le_trans hcnt (hoccle o)
    have honR : o ∉ R := by
      intro hoR
      have := hRz o hoR
      omega
    have honid : o ≠ id := fun he => hidocc (he ▸ hoocc)
    have honQ : o ∉ st.2 := by
      intro hoQ
      rcases (h3 o).1 hoQ with hr | ⟨_, heq, hpos⟩
      · have := hrestz o hr
        omega
      · omega
    have hgetDo : jget st.1 o = some ((remDeg K R o : Int) - pre.count o) :=
      h2 o hokeys
    have hjo : jhas st.1 o = true := by
      rw [jhas_iff_mem_keys, h1]
      exact hokeys
    have hD1' : ∀ X : Int, (jset st.1 o X).map (·.1) = keysOf K := by
      intro X
      rw [jset_map_fst_of_jhas _ _ _ hjo, h1]
    have hD2' : ∀ c ∈ keysOf K,
        jget (jset st.1 o ((remDeg K R o : Int) - pre.count o - 1)) c =
          some ((remDeg K R c : Int) - (pre ++ [o]).count c) := by
      intro c hc
      by_cases hco : c = o
      · subst hco
        rw [jget_jset_self]
        congr 1
        have : (pre ++ [c]).count c = pre.count c + 1 := by
          simp [List.count_append, List.count_cons]
        rw [this]
        push_cast
        ring
      · rw [jget_jset_ne _ _ _ _ hco, h2 c hc]
        have : (pre ++ [o]).count c = pre.count c := by
          simp [List.count_append, List.count_cons, Ne.symm hco]
        rw [this]
    rw [List.foldl_cons]
    by_cases hz : (remDeg K R o : Int) - pre.count o - 1 = 0
    · have hzn : remDeg K R o = pre.count o + 1 := by omega
      have hstep : topoChildStep K st o =
          (jset st.1 o ((remDeg K R o : Int) - pre.count o - 1),
           sortQueue K (st.2 ++ [o])) := by
        unfold topoChildStep
        rw [hgetDo]
        simp only [Option.getD_some]
        rw [if_pos (by simpa using hz)]
      rw [hstep]
      have hnext := ih (pre ++ [o])
        (jset st.1 o ((remDeg K R o : Int) - pre.count o - 1),
         sortQueue K (st.2 ++ [o]))
        (by rw [hocc, List.append_assoc]; rfl) hRz ?_
      · rw [List.append_assoc] at hnext
        simpa using hnext
      refine ⟨hD1' _, hD2', ?_, ?_, ?_⟩
      · intro c
        rw [(sortQueue_perm K _).mem_iff, List.mem_append, List.mem_singleton]
        constructor
        · rintro (hcQ | rfl)
          · have hco : c ≠ o := fun he => honQ (he ▸ hcQ)
            have hcc : (pre ++ [o]).count c = pre.count c := by
              simp [List.count_append, List.count_cons, Ne.symm hco]
            rcases (h3 c).1 hcQ with hr | ⟨hk, heq, hpos⟩
            · exact Or.inl hr
            · exact Or.inr ⟨hk, by rw [hcc]; exact heq, by omega⟩
          · refine Or.inr ⟨hokeys, ?_, ?_⟩
            · rw [show (pre ++ [c]).count c = pre.count c + 1 from by
                simp [List.count_append, List.count_cons]]
              exact hzn
            · rw [show (pre ++ [c]).count c = pre.count c + 1 from by
                simp [List.count_append, List.count_cons]]
              omega
        · rintro (hr | ⟨hk, heq, hpos⟩)
          · exact Or.inl ((h3 c).2 (Or.inl hr))
          · by_cases hco : c = o
            · exact Or.inr hco
            · have hcc : (pre ++ [o]).count c = pre.count c := by
                simp [List.count_append, List.count_cons, Ne.symm hco]
              rw [hcc] at heq hpos
              exact Or.inl ((h3 c).2 (Or.inr ⟨hk, heq, hpos⟩))
      · refine (sortQueue_perm K _).nodup_iff.2 ?_
        refine List.nodup_append.2 ⟨h4, List.nodup_singleton o, ?_⟩
        intro a ha hao
        rw [List.mem_singleton] at hao
        exact honQ (hao ▸ ha)
      · intro c hc
        rcases (sortQueue_perm K _).mem_iff.1 hc with hc'
        rcases List.mem_append.1 hc' with hcQ | hco
        · exact h5 c hcQ
        · rw [List.mem_singleton] at hco
          subst hco
          exact ⟨honR, honid⟩
    · have hzn : remDeg K R o ≠ pre.count o + 1 := by
        intro he
        apply hz
        rw [he]
        push_cast
        ring
      have hstep : topoChildStep K st o =
          (jset st.1 o ((remDeg K R o : Int) - pre.count o - 1), st.2) := by
        unfold topoChildStep
        rw [hgetDo]
        simp only [Option.getD_some]
        rw [if_neg (by simpa using hz)]
      rw [hstep]
      have hnext := ih (pre ++ [o])
        (jset st.1 o ((remDeg K R o : Int) - pre.count o - 1), st.2)
        (by rw [hocc, List.append_assoc]; rfl) hRz ?_
      · rw [List.append_assoc] at hnext
        simpa using hnext
      refine ⟨hD1' _, hD2', ?_, h4, h5⟩
      intro c
      by_cases hco : c = o
      · subst hco
        constructor
        · intro hcQ
          exact absurd hcQ honQ
        · rintro (hr | ⟨hk, heq, hpos⟩)
          · exact absurd ((h3 c).2 (Or.inl hr)) honQ
          · rw [show (pre ++ [c]).count c = pre.count c + 1 from by
              simp [List.count_append, List.count_cons]] at heq
            exact absurd heq hzn
      · have hcc : (pre ++ [o]).count c = pre.count c := by
          simp [List.count_append, List.count_cons, Ne.symm hco]
        rw [h3 c, hcc]

theorem chl_mem_keys (K P : CommitMap) (x : String) :
    ∀ c ∈ chl K P x, c ∈ keysOf P := by
  intro c hc
  unfold chl at hc
  by_cases hx : jhas K x = true
  · rw [if_pos hx] at hc
    rcases List.mem_flatMap.1 hc with ⟨e, heP, hce⟩
    rcases List.mem_map.1 hce with ⟨_, _, hc1⟩
    rw [← hc1]
    exact List.mem_map.2 ⟨e, heP, rfl⟩
  · rw [if_neg hx] at hc
    cases hc

/-- Invariant of the `while (queue.length > 0)` loop of `buildTopoOrder`
at the top of each iteration. -/
def topoInv (K : CommitMap) (inDeg : List (String × Int))
    (queue result : List String) : Prop :=
  (inDeg.map (·.1) = keysOf K) ∧
  (∀ c ∈ keysOf K, jget inDeg c = some ((remDeg K result c : Int))) ∧
  ((result ++ queue).Nodup) ∧
  (∀ c ∈ result, c ∈ keysOf K) ∧
  (∀ c, c ∈ queue ↔ (c ∈ keysOf K ∧ c ∉ result ∧ remDeg K result c = 0)) ∧
  (∀ c ∈ result, ∀ p ∈ presParents K c,
    p ∈ result ∧ result.indexOf p < result.indexOf c)

theorem topoLoop_spec (K : CommitMap) (hnd : (keysOf K).Nodup)
    (hacc : ∀ c, Acc (parentRel K) c)
    (CH : List (String × List String))
    (hch : ∀ q, (jget CH q).getD [] = chl K K q) :
    ∀ (fuel : Nat) (inDeg : List (String × Int)) (queue result : List String),
      topoInv K inDeg queue result →
      (keysOf K).length - result.length < fuel →
      (∀ c, c ∈ topoLoop K CH fuel inDeg queue result ↔ c ∈ keysOf K) ∧
      (topoLoop K CH fuel inDeg queue result).Nodup ∧
      (∀ c ∈ topoLoop K CH fuel inDeg queue result,
        ∀ p ∈ presParents K c,
          p ∈ topoLoop K CH fuel inDeg queue result ∧
          (topoLoop K CH fuel inDeg queue result).indexOf p <
            (topoLoop K CH fuel inDeg queue result).indexOf c) := by
  intro fuel
  induction fuel with
  | zero =>
    intro inDeg queue result hinv hf
    omega
  | succ fuel ih =>
    intro inDeg queue result hinv hf
    obtain ⟨h1, h2, h3, h4, h5, h6⟩ := hinv
    cases queue with
    | nil =>
      have hres : topoLoop K CH (fuel + 1) inDeg [] result = result := rfl
      rw [hres]
      have hcomp : ∀ c, Acc (parentRel K) c → c ∈ keysOf K → c ∈ result := by
        intro c hc
        induction hc with
        | intro x hx ihx =>
          intro hxK
          by_contra hxR
          have hrd : remDeg K result x ≠ 0 := by
            intro h0
            have := (h5 x).2 ⟨hxK, hxR, h0⟩
            cases this
          obtain ⟨p, hpmem, hpnr⟩ : ∃ p ∈ presParents K x, p ∉ result := by
            by_contra hall
            push_neg at hall
            exact hrd (remDeg_eq_zero_of_sub K result x hall)
          have hpK : p ∈ keysOf K := by
            have hf2 := List.mem_filter.1 hpmem
            exact (jhas_iff_mem_keys K p).1 hf2.2
          exact hpnr (ihx p hpmem hpK)
      refine ⟨?_, ?_, ?_⟩
      · intro c
        exact ⟨h4 c, fun hc => hcomp c (hacc c) hc⟩
      · simpa using h3
      · intro c hc p hp
        exact h6 c hc p hp
    | cons id rest =>
      have hidq := (h5 id).1 (List.mem_cons_self _ _)
      obtain ⟨hidK, hidnR, hidz⟩ := hidq
      have hjid : jhas K id = true := (jhas_iff_mem_keys K id).2 hidK
      have hocc : (jget CH id).getD [] = chl K K id := hch id
      have hoccle : ∀ c, (chl K K id).count c ≤ remDeg K result c := by
        intro c
        rw [count_chl K hnd id hjid c, ← count_pres K c id hjid]
        exact count_le_remDeg K result id c hidnR
      have hocckeys : ∀ c ∈ chl K K id, c ∈ keysOf K := chl_mem_keys K K id
      have hidocc : id ∉ chl K K id := by
        rw [← List.count_eq_zero]
        rw [count_chl K hnd id hjid id, ← count_pres K id id hjid]
        rw [List.count_eq_zero]
        exact acc_not_self (hacc id)
      have hrestz : ∀ c ∈ rest, remDeg K result c = 0 := by
        intro c hc
        exact ((h5 c).1 (List.mem_cons_of_mem _ hc)).2.2
      have hRz : ∀ c ∈ result, remDeg K result c = 0 := by
        intro c hc
        exact remDeg_eq_zero_of_sub K result c (fun p hp => (h6 c hc p hp).1)
      have hndr : result.Nodup ∧ (id :: rest).Nodup ∧
          result.Disjoint (id :: rest) := List.nodup_append.1 h3
      have hidrest : id ∉ rest := by
        have := hndr.2.1
        rw [List.nodup_cons] at this
        exact this.1
      have hinv0 : childFoldInv K result rest id [] (inDeg, rest) := by
        refine ⟨h1, ?_, ?_, ?_, ?_⟩
        · intro c hc
          simpa using h2 c hc
        · intro c
          simp
        · exact (List.nodup_cons.1 hndr.2.1).2
        · intro c hc
          refine ⟨((h5 c).1 (List.mem_cons_of_mem _ hc)).2.1, ?_⟩
          intro he
          exact hidrest (he ▸ hc)
      have hfold := childFold_go K result rest id (chl K K id) hoccle
        hocckeys hidocc hrestz (chl K K id) [] (inDeg, rest) rfl hRz hinv0
      rw [← hocc] at hfold
      obtain ⟨g1, g2, g3, g4, g5⟩ := hfold
      simp only [List.nil_append] at g2 g3
      have heq : topoLoop K CH (fuel + 1) inDeg (id :: rest) result =
          topoLoop K CH fuel
            (((jget CH id).getD []).foldl (topoChildStep K) (inDeg, rest)).1
            (((jget CH id).getD []).foldl (topoChildStep K) (inDeg, rest)).2
            (result ++ [id]) := rfl
      rw [heq]
      have hndR' : (result ++ [id]).Nodup := by
        refine List.nodup_append.2 ⟨hndr.1, List.nodup_singleton id, ?_⟩
        intro a ha hax
        rw [List.mem_singleton] at hax
        exact hidnR (hax ▸ ha)
      have hinv' : topoInv K
          (((jget CH id).getD []).foldl (topoChildStep K) (inDeg, rest)).1
          (((jget CH id).getD []).foldl (topoChildStep K) (inDeg, rest)).2
          (result ++ [id]) := by
        refine ⟨g1, ?_, ?_, ?_, ?_, ?_⟩
        · intro c hc
          rw [g2 c hc]
          congr 1
          have hsub := remDeg_append K result id c hidnR
          have hle : (presParents K c).count id ≤ remDeg K result c :=
            count_le_remDeg K result id c hidnR
          have hcnt : ((jget CH id).getD []).count c =
              (presParents K c).count id := by
            rw [hocc, count_chl K hnd id hjid c, ← count_pres K c id hjid]
          rw [hcnt, hsub]
          push_cast [hle]
          ring
        · refine List.nodup_append.2 ⟨hndR', g4, ?_⟩
          intro a ha hax
          rcases List.mem_append.1 ha with haR | haid
          · exact (g5 a hax).1 haR
          · rw [List.mem_singleton] at haid
            exact (g5 a hax).2 haid
        · intro c hc
          rcases List.mem_append.1 hc with hcR | hcid
          · exact h4 c hcR
          · rw [List.mem_singleton] at hcid
            exact hcid ▸ hidK
        · intro c
          rw [g3 c]
          have hsub := remDeg_append K result id c hidnR
          have hle : (presParents K c).count id ≤ remDeg K result c :=
            count_le_remDeg K result id c hidnR
          have hcnt : ((jget CH id).getD []).count c =
              (presParents K c).count id := by
            rw [hocc, count_chl K hnd id hjid c, ← count_pres K c id hjid]
          constructor
          · rintro (hr | ⟨hk, heq2, hpos⟩)
            · obtain ⟨hk, hnr, hz⟩ := (h5 c).1 (List.mem_cons_of_mem _ hr)
              have hcid : c ≠ id := fun he => hidrest (he ▸ hr)
              refine ⟨hk, ?_, ?_⟩
              · intro hc'
                rcases List.mem_append.1 hc' with hcR | hcid'
                · exact hnr hcR
                · rw [List.mem_singleton] at hcid'
                  exact hcid hcid'
              · omega
            · rw [hcnt] at heq2 hpos
              have hcnr : c ∉ result := by
                intro hcR
                have := hRz c hcR
                omega
              have hcid : c ≠ id := by
                intro he
                subst he
                rw [← hcnt] at hpos
                rw [hocc] at hpos
                have : (chl K K c).count c = 0 := List.count_eq_zero.2 hidocc
                omega
              refine ⟨hk, ?_, ?_⟩
              · intro hc'
                rcases List.mem_append.1 hc' with hcR | hcid'
                · exact hcnr hcR
                · rw [List.mem_singleton] at hcid'
                  exact hcid hcid'
              · omega
          · rintro ⟨hk, hnr', hz'⟩
            have hcnr : c ∉ result := fun hcR =>
              hnr' (List.mem_append.2 (Or.inl hcR))
            have hcid : c ≠ id := fun he =>
              hnr' (List.mem_append.2 (Or.inr (by rw [List.mem_singleton]; exact he)))
            by_cases hzero : (presParents K c).count id = 0
            · have hrz : remDeg K result c = 0 := by omega
              have := (h5 c).2 ⟨hk, hcnr, hrz⟩
              rcases List.mem_cons.1 this with he | hr
              · exact absurd he hcid
              · exact Or.inl hr
            · refine Or.inr ⟨hk, ?_, ?_⟩
              · rw [hcnt]
                omega
              · rw [hcnt]
                omega
        · intro c hc p hp
          rcases List.mem_append.1 hc with hcR | hcid
          · obtain ⟨hpR, hpi⟩ := h6 c hcR p hp
            refine ⟨List.mem_append.2 (Or.inl hpR), ?_⟩
            rw [List.indexOf_append_of_mem hpR, List.indexOf_append_of_mem hcR]
            exact hpi
          · rw [List.mem_singleton] at hcid
            subst hcid
            have hpR : p ∈ result := remDeg_zero_parents K result c hidz p hp
            refine ⟨List.mem_append.2 (Or.inl hpR), ?_⟩
            rw [List.indexOf_append_of_mem hpR,
              List.indexOf_append_of_not_mem hidnR]
            have := List.indexOf_lt_length.2 hpR
            simp only [List.indexOf_cons_self]
            omega
      have hlen : result.length + 1 ≤ (keysOf K).length := by
        have hsub : insert id result.toFinset ⊆ (keysOf K).toFinset := by
          intro a ha
          rcases Finset.mem_insert.1 ha with he | hm
          · subst he
            exact List.mem_toFinset.2 hidK
          · exact List.mem_toFinset.2 (h4 a (List.mem_toFinset.1 hm))
        have hcard := Finset.card_le_card hsub
        rw [Finset.card_insert_of_not_mem (by
          rw [List.mem_toFinset]
          exact hidnR)] at hcard
        rw [List.toFinset_card_of_nodup hndr.1,
          List.toFinset_card_of_nodup hnd] at hcard
        omega
      have := ih
        (((jget CH id).getD []).foldl (topoChildStep K) (inDeg, rest)).1
        (((jget CH id).getD []).foldl (topoChildStep K) (inDeg, rest)).2
        (result ++ [id]) hinv' (by
          rw [List.length_append]
          simp only [List.length_singleton]
          omega)
      exact this

/-- C1: for every commit map with unique ids (a JS `Map` invariant) whose
present-parent relation is well-founded (a DAG: no parent cycles among
commits present in the map), `buildTopoOrder` outputs every commit exactly
once — its length equals the commit count, with parents absent from the
map not contributing to in-degree and so never blocking ordering — and for
all commits `c` with parent `p` both present in the map, `p` appears
strictly before `c` in the output. -/
theorem buildTopoOrder_correct (K : CommitMap)
    (hnd : (K.map (·.1)).Nodup)
    (hacc : ∀ c, Acc (parentRel K) c) :
    ((buildTopoOrder K).length = K.length) ∧
    (∀ c node p, jget K c = some node → p ∈ node.parents →
      jhas K p = true →
      (buildTopoOrder K).indexOf p < (buildTopoOrder K).indexOf c) := by
  have hndk : (keysOf K).Nodup := hnd
  obtain ⟨hd1, hd2, hd3⟩ := topoDegrees_spec K hndk
  have hq0nd : (((topoDegrees K).1.filter (fun e => e.2 == 0)).map (·.1)).Nodup := by
    have hsub : ((topoDegrees K).1.filter (fun e => e.2 == 0)).map (·.1) |>.Sublist
        ((topoDegrees K).1.map (·.1)) :=
      (List.filter_sublist _).map _
    rw [hd1] at hsub
    exact hndk.sublist hsub
  have hmemq0 : ∀ c, c ∈ ((topoDegrees K).1.filter (fun e => e.2 == 0)).map (·.1) ↔
      (c ∈ keysOf K ∧ remDeg K [] c = 0) := by
    intro c
    have hnddc : ((topoDegrees K).1.map (·.1)).Nodup := by
      rw [hd1]
      exact hndk
    constructor
    · intro hc
      rcases List.mem_map.1 hc with ⟨e, hef, he1⟩
      rcases List.mem_filter.1 hef with ⟨hedc, hez⟩
      have hck : c ∈ keysOf K := by
        rw [← hd1]
        exact List.mem_map.2 ⟨e, hedc, he1⟩
      refine ⟨hck, ?_⟩
      have hget : jget (topoDegrees K).1 c = some e.2 := by
        have : (c, e.2) ∈ (topoDegrees K).1 := by
          rw [← he1]
          exact hedc
        exact jget_eq_of_mem_nodup hnddc this
      rw [hd2 c hck] at hget
      have he2 : e.2 = ((presParents K c).length : Int) :=
        (Option.some_inj.1 hget).symm
      have hez' : e.2 = 0 := by simpa using hez
      rw [remDeg_nil]
      omega
    · rintro ⟨hck, hz⟩
      have hget : jget (topoDegrees K).1 c =
          some ((presParents K c).length : Int) := hd2 c hck
      have hlen0 : (presParents K c).length = 0 := by
        rw [remDeg_nil] at hz
        exact hz
      have hmem := jget_mem hget
      refine List.mem_map.2 ⟨(c, ((presParents K c).length : Int)), ?_, rfl⟩
      refine List.mem_filter.2 ⟨hmem, ?_⟩
      rw [hlen0]
      rfl
  have hinv0 : topoInv K (topoDegrees K).1
      (sortQueue K (((topoDegrees K).1.filter (fun e => e.2 == 0)).map (·.1)))
      [] := by
    refine ⟨hd1, ?_, ?_, ?_, ?_, ?_⟩
    · intro c hc
      rw [hd2 c hc, remDeg_nil]
    · rw [List.nil_append]
      exact (sortQueue_perm K _).nodup_iff.2 hq0nd
    · intro c hc
      cases hc
    · intro c
      rw [(sortQueue_perm K _).mem_iff, hmemq0 c]
      constructor
      · rintro ⟨hk, hz⟩
        exact ⟨hk, List.not_mem_nil c, hz⟩
      · rintro ⟨hk, _, hz⟩
        exact ⟨hk, hz⟩
    · intro c hc
      cases hc
  have hfuel : (keysOf K).length - ([] : List String).length < K.length + 1 := by
    have : (keysOf K).length = K.length := List.length_map _ _
    simp [this]
  have hpost := topoLoop_spec K hndk hacc (topoDegrees K).2 hd3
    (K.length + 1) (topoDegrees K).1
    (sortQueue K (((topoDegrees K).1.filter (fun e => e.2 == 0)).map (·.1)))
    [] hinv0 hfuel
  have hbuild : buildTopoOrder K = topoLoop K (topoDegrees K).2 (K.length + 1)
      (topoDegrees K).1
      (sortQueue K (((topoDegrees K).1.filter (fun e => e.2 == 0)).map (·.1)))
      [] := rfl
  rw [hbuild]
  obtain ⟨hmem, hndp, hord⟩ := hpost
  constructor
  · have hfs : (topoLoop K (topoDegrees K).2 (K.length + 1) (topoDegrees K).1
        (sortQueue K (((topoDegrees K).1.filter (fun e => e.2 == 0)).map (·.1)))
        []).toFinset = (keysOf K).toFinset := by
      apply Finset.ext
      intro a
      rw [List.mem_toFinset, List.mem_toFinset]
      exact hmem a
    have h1 := List.toFinset_card_of_nodup hndp
    have h2 := List.toFinset_card_of_nodup hndk
    rw [hfs, h2] at h1
    rw [← h1]
    exact List.length_map _ _
  · intro c node p hget hp hhp
    have hck : c ∈ keysOf K :=
      (jhas_iff_mem_keys K c).1 ((jhas_iff_jget K c).2 ⟨node, hget⟩)
    have hpp : p ∈ presParents K c := by
      unfold presParents parentsOf
      rw [hget]
      exact List.mem_filter.2 ⟨hp, hhp⟩
    exact (hord c ((hmem c).2 hck) p hpp).2

/-- Commit map for the C1 witness: `b` has present parent `a` and an
absent parent `zz`. -/
def exC1 : CommitMap :=
  [("a", { id := "a", parents := [], authorName := "x", authoredAt := 5,
           messageSubject := "", branchHints := none, stats := none }),
   ("b", { id := "b", parents := ["a", "zz"], authorName := "y",
           authoredAt := 9, messageSubject := "", branchHints := none,
           stats := none })]

theorem exC1_acc : ∀ c, Acc (parentRel exC1) c := by
  have hA : Acc (parentRel exC1) "a" := by
    constructor
    intro p hp
    have hp' : p ∈ presParents exC1 "a" := hp
    rw [show presParents exC1 "a" = [] from by decide] at hp'
    cases hp'
  have hB : Acc (parentRel exC1) "b" := by
    constructor
    intro p hp
    have hp' : p ∈ presParents exC1 "b" := hp
    rw [show presParents exC1 "b" = ["a"] from by decide] at hp'
    rw [List.mem_singleton] at hp'
    subst hp'
    exact hA
  intro c
  by_cases hca : c = "a"
  · subst hca
    exact hA
  by_cases hcb : c = "b"
  · subst hcb
    exact hB
  constructor
  intro p hp
  have hp' : p ∈ presParents exC1 c := hp
  have hnone : presParents exC1 c = [] := by
    have h1 : ("a" == c) = false := beq_eq_false_iff_ne.2 (fun h => hca h.symm)
    have h2 : ("b" == c) = false := beq_eq_false_iff_ne.2 (fun h => hcb h.symm)
    have hg : jget exC1 c = none := by
      unfold exC1
      rw [jget_cons, if_neg (by simp [h1]), jget_cons, if_neg (by simp [h2]),
        jget_nil]
    unfold presParents parentsOf
    rw [hg]
    rfl
  rw [hnone] at hp'
  cases hp'

/-- Witness for C1 at a concrete two-commit map with one absent parent:
the order contains both commits and lists `a` before its child `b`. -/
theorem buildTopoOrder_correct_witness :
    ((buildTopoOrder exC1).length = exC1.length) ∧
    ((buildTopoOrder exC1).indexOf "a" < (buildTopoOrder exC1).indexOf "b") := by
  obtain ⟨hlen, hord⟩ := buildTopoOrder_correct exC1 (by decide) exC1_acc
  refine ⟨hlen, ?_⟩
  exact hord "b"
    { id := "b", parents := ["a", "zz"], authorName := "y", authoredAt := 9,
      messageSubject := "", branchHints := none, stats := none }
    "a" (by decide) (by decide) (by decide)

end GitSonar
